import Mathlib

/-!
Verification of the concurrent paginated extraction pipeline
(`scrape_earnings_schedule.py` / `scrape_earnings_schedule_optimized.py`).

Strings are modelled as `List Char` (the scraper receives cell texts and
hrefs already stripped by the HTML capability, per the spec's document
capability boundary).  Python floats that only ever hold finite decimal
values parsed from digit strings are modelled exactly as rationals.
Regex patterns of the source are implemented directly; for every pattern
used by the source, the greedy maximal-munch scan implemented here agrees
with Python's backtracking semantics because no continuation of a
starred/plus group in those patterns can consume a character that the
group itself matches.
-/

namespace Stock

/-- Strings of the scraper, as explicit character lists. -/
abbrev Str := List Char

/-- Numeric value of a digit string read in base 10 (value of Python
`int(s)` for a string of ASCII digits). -/
def digitsToNat (s : Str) : Nat :=
  s.foldl (fun acc c => 10 * acc + (c.toNat - '0'.toNat)) 0

/-- Exact value of the Python float literal `d1 ++ "." ++ d2` where both
parts are digit strings (`d2` may be empty, meaning a trailing dot). -/
def ratOfDigits (d1 d2 : Str) : ℚ :=
  mkRat (digitsToNat d1 * 10 ^ d2.length + digitsToNat d2) (10 ^ d2.length)

/-- Whitespace for Python `str.split()` and the regex class `\s`
(ASCII fragment, which is all the scraped pages use). -/
def isSpaceChar (c : Char) : Bool :=
  c = ' ' || c = '\t' || c = '\n' || c = '\r' || c = '\x0b' || c = '\x0c'

/-- Unanchored substring search, the semantics of `re.search` for a
pattern that is a plain literal (e.g. `/reportTop\?bcode=`). -/
def containsSub (pat : Str) : Str → Bool
  | [] => pat.isEmpty
  | c :: cs => pat.isPrefixOf (c :: cs) || containsSub pat cs

/-- Search semantics of `re.search(key ++ r"(\d+)", s)`: the digit run
following the leftmost occurrence of the literal `key` that is followed
by at least one digit.  Used for `bcode=(\d+)` and `page=(\d+)`. -/
def searchKeyDigits (key : Str) : Str → Option Str
  | [] => none
  | c :: cs =>
    if key.isPrefixOf (c :: cs) then
      let ds := ((c :: cs).drop key.length).takeWhile Char.isDigit
      if ds = [] then searchKeyDigits key cs else some ds
    else searchKeyDigits key cs

/-- Remove every comma, the effect of Python `s.replace(',', '')`. -/
def stripCommas (s : Str) : Str := s.filter (fun c => c ≠ ',')

/-- Search semantics of `re.search(r"([0-9,]+\.?\d*)", s)` applied, as the
source always does, to a comma-free string: value of the leftmost maximal
digit run, optionally extended by a dot and a further digit run. -/
def searchNumber : Str → Option ℚ
  | [] => none
  | c :: cs =>
    if c.isDigit then
      let d1 := (c :: cs).takeWhile Char.isDigit
      match (c :: cs).dropWhile Char.isDigit with
      | '.' :: r => some (ratOfDigits d1 (r.takeWhile Char.isDigit))
      | _ => some (ratOfDigits d1 [])
    else searchNumber cs

/-! ### Progress-rate extraction (`_parse_progress_rate`, source lines
106-123 of the optimized scraper; identical inline logic at lines 101-125
of `scrape_earnings_schedule.py`). -/

/-- Full anchored match of `^\d+\.\d+$` together with the float value of
the matched text. -/
def parseDecimal (s : Str) : Option ℚ :=
  let d1 := s.takeWhile Char.isDigit
  match s.dropWhile Char.isDigit with
  | '.' :: r =>
    let d2 := r.takeWhile Char.isDigit
    if d1 ≠ [] ∧ d2 ≠ [] ∧ r.drop d2.length = [] then some (ratOfDigits d1 d2)
    else none
  | _ => none

/-- The `_parse_progress_rate` helper: a bare decimal in [0, 200], else a
decimal followed by `%` in [0, 200], else nothing. -/
def parseProgressRate (s : Str) : Option ℚ :=
  match parseDecimal s with
  | some v => if 0 ≤ v ∧ v ≤ 200 then some v else none
  | none =>
    if s.getLast? = some '%' then
      match parseDecimal s.dropLast with
      | some v => if 0 ≤ v ∧ v ≤ 200 then some v else none
      | none => none
    else none

/-- First cell text yielding a progress rate, in the given scan order. -/
def firstRate : List Str → Option ℚ
  | [] => none
  | c :: rest =>
    match parseProgressRate c with
    | some r => some r
    | none => firstRate rest

/-- The right-to-left progress-rate scan over a row's cells
(`for cell in reversed(cells)`, source lines 166-172). -/
def findProgressRate (cells : List Str) : Option ℚ :=
  firstRate cells.reverse

/-! ### Row extraction (`parse_company_row`, `extract_earnings_data_batch`,
`process_pages_parallel` of the optimized scraper). -/

/-- One `tr` element, as delivered by the external HTML capability:
its anchors (stripped text, href) in document order and its `td` cell
texts (stripped) in document order. -/
structure ListingRow where
  anchors : List (Str × Str)
  cells : List Str
deriving DecidableEq

/-- One company record (`CompanyData`).  The valuation fields hold the
numeric value of the stored string, `none` standing for the `'N/A'`
default. -/
structure CompanyData where
  name : Str
  stockCode : Str
  progressRate : Option ℚ
  detailUrl : Str
  per : Option ℚ := none
  pbr : Option ℚ := none
  dividendYield : Option ℚ := none
deriving DecidableEq

/-- The site's base origin used to absolutize relative hrefs. -/
def siteOrigin : Str := "https://kabuyoho.jp".toList

/-- Python `str.split()`: split on whitespace runs, dropping empties.
The first argument accumulates the current word in reverse. -/
def splitWsAux (cur : Str) : Str → List Str
  | [] => if cur = [] then [] else [cur.reverse]
  | c :: cs =>
    if isSpaceChar c then
      if cur = [] then splitWsAux [] cs else cur.reverse :: splitWsAux [] cs
    else splitWsAux (c :: cur) cs

/-- Python `str.split()` with no separator argument. -/
def splitWs (s : Str) : List Str := splitWsAux [] s

/-- The company-detail link pattern `/reportTop\?bcode=` (a literal). -/
def companyLinkMarker : Str := "/reportTop?bcode=".toList

/-- The `parse_company_row` function (optimized scraper, lines 140-191):
find the company anchor, split name and stock code, scan for the progress
rate right to left, build the detail URL, and drop rows with no name. -/
def parseCompanyRow (row : ListingRow) : Option CompanyData :=
  match row.anchors.find? (fun a => containsSub companyLinkMarker a.2) with
  | none => none
  | some (fullText, href) =>
    let stockCode0 := (searchKeyDigits "bcode=".toList href).getD []
    let parts := splitWs fullText
    let nameCode :=
      match parts.getLast? with
      | some lastTok =>
        if 2 ≤ parts.length ∧ lastTok ≠ [] ∧ lastTok.all Char.isDigit then
          (List.intercalate [' '] parts.dropLast,
           if stockCode0 = [] then lastTok else stockCode0)
        else (fullText, stockCode0)
      | none => (fullText, stockCode0)
    let detailUrl :=
      if href = [] then []
      else if href.head? = some '/' then siteOrigin ++ href
      else if "http".toList.isPrefixOf href then href
      else siteOrigin ++ '/' :: href
    if nameCode.1 = [] then none
    else some { name := nameCode.1, stockCode := nameCode.2,
                progressRate := findProgressRate row.cells,
                detailUrl := detailUrl }

/-- The dedup key `f"{company.name}_{company.stock_code}"`. -/
def dedupKey (c : CompanyData) : Str := c.name ++ '_' :: c.stockCode

/-- Scan of one document's rows with the per-document `seen_companies`
set (`extract_earnings_data_batch`, lines 193-204). -/
def extractBatchAux (seen : List Str) : List ListingRow → List CompanyData
  | [] => []
  | r :: rs =>
    match parseCompanyRow r with
    | none => extractBatchAux seen rs
    | some c =>
      if dedupKey c ∈ seen then extractBatchAux seen rs
      else c :: extractBatchAux (dedupKey c :: seen) rs

/-- `extract_earnings_data_batch` on one fetched document. -/
def extractBatch (rows : List ListingRow) : List CompanyData :=
  extractBatchAux [] rows

/-- The run-wide filter of `process_pages_parallel` (lines 277-281):
emit the companies whose key is not yet in the run-wide seen set,
returning the grown set together with the emitted records. -/
def siftNew (seen : List Str) : List CompanyData → List Str × List CompanyData
  | [] => (seen, [])
  | c :: cs =>
    if dedupKey c ∈ seen then siftNew seen cs
    else
      let r := siftNew (dedupKey c :: seen) cs
      (r.1, c :: r.2)

/-- `process_pages_parallel` (lines 263-284) over the fetch results of
the pages, in task order; a failed fetch (`None`) contributes nothing. -/
def processPagesAux (seen : List Str) : List (Option (List ListingRow)) → List CompanyData
  | [] => []
  | none :: ps => processPagesAux seen ps
  | some rows :: ps =>
    let r := siftNew seen (extractBatch rows)
    r.2 ++ processPagesAux r.1 ps

/-- Full multi-page extraction with the run-wide dedup set. -/
def processPages (pages : List (Option (List ListingRow))) : List CompanyData :=
  processPagesAux [] pages

/-! ### Pagination resolution (`get_all_page_urls`, optimized scraper
lines 305-335). -/

/-- Does the regex fragment `.*page=\d+` match a prefix of the string?
Python `.` does not cross a newline. -/
def pageLinkFrom : Str → Bool
  | [] => false
  | c :: cs =>
    ("page=".toList.isPrefixOf (c :: cs)
        && (((c :: cs).drop 5).head?.elim false Char.isDigit))
      || (c ≠ '\n' && pageLinkFrom cs)

/-- Search semantics of `re.compile(r"/calender\?.*page=\d+").search`,
the href filter for pagination links. -/
def matchesPageLink : Str → Bool
  | [] => false
  | c :: cs =>
    ("/calender?".toList.isPrefixOf (c :: cs)
        && pageLinkFrom ((c :: cs).drop 10))
      || matchesPageLink cs

/-- Page numbers harvested from the pagination links (lines 310-317):
filter hrefs by the page-link pattern, then extract `page=(\d+)`. -/
def extractPageNums (links : List Str) : List Nat :=
  (links.filter matchesPageLink).filterMap
    (fun h => (searchKeyDigits "page=".toList h).map digitsToNat)

/-- Python `str.replace(pat, rep)`: replace all non-overlapping
occurrences left to right.  The fuel argument bounds the scan and is
instantiated with the string length, which suffices because every step
consumes at least one character; the source only ever calls this with
the non-empty pattern `"#stocklist"`. -/
def replaceAllAux (pat rep : Str) : Nat → Str → Str
  | _, [] => []
  | 0, l => l
  | fuel + 1, c :: cs =>
    if pat ≠ [] ∧ pat.isPrefixOf (c :: cs) then
      rep ++ replaceAllAux pat rep fuel ((c :: cs).drop pat.length)
    else c :: replaceAllAux pat rep fuel cs

/-- Python `str.replace(pat, rep)` on `l`. -/
def replaceAll (pat rep l : Str) : Str := replaceAllAux pat rep l.length l

/-- The literal fragment `#stocklist` the synthesizer looks for. -/
def stocklistTag : Str := "#stocklist".toList

/-- URL synthesis for one page number (lines 324-328): pick `&` or `?`
as separator, then insert `page=N` before `#stocklist` when that
fragment is present, else append it at the end. -/
def synthRaw (base : Str) (n : Nat) : Str :=
  let sep : Str := if '?' ∈ base then ['&'] else ['?']
  let pagePiece : Str := "page=".toList ++ Nat.toDigits 10 n
  if containsSub stocklistTag base then
    replaceAll stocklistTag (sep ++ pagePiece ++ stocklistTag) base
  else base ++ sep ++ pagePiece

/-- One synthesized page URL (lines 324-331): the synthesis above
followed by absolutizing a leading-slash result against the site
origin. -/
def synthPageUrl (base : Str) (n : Nat) : Str :=
  let u := synthRaw base n
  if u.head? = some '/' then siteOrigin ++ u else u

/-- `get_all_page_urls` of the optimized scraper: the seed URL first,
then a synthesized URL for each page number from 2 to the maximum
number found in the pagination links. -/
def getAllPageUrls (links : List Str) (baseUrl : Str) : List Str :=
  let nums := extractPageNums links
  if nums = [] then [baseUrl]
  else baseUrl :: (List.range' 2 (nums.foldl max 0 - 1)).map (synthPageUrl baseUrl)

/-- The fragment of a URL: everything from the first `#` on (empty when
there is no fragment). -/
def fragmentOf (url : Str) : Str := url.dropWhile (fun c => c ≠ '#')

/-! ### Price-band indicator (`main` of `scrape_earnings_schedule.py`,
lines 737-752): `(current - low) / (high - low)` when all three prices
are present and `high > low`, otherwise the field stays `'N/A'`. -/

/-- Indicator computation on the parsed price fields (`none` is a field
holding `'N/A'`). -/
def computeIndicator (currentVal highVal lowVal : Option ℚ) : Option ℚ :=
  match currentVal, highVal, lowVal with
  | some c, some h, some l => if l < h then some ((c - l) / (h - l)) else none
  | _, _, _ => none

/-! ### Detail enrichment (`extract_company_details` of
`scrape_earnings_schedule.py`, lines 187-350, and
`_extract_details_from_html` of the optimized scraper, lines 229-261). -/

/-- The three valuation fields of the details dictionary; `none` is the
`'N/A'` default, `some v` a field holding the numeric value `v`. -/
structure Details where
  per : Option ℚ := none
  pbr : Option ℚ := none
  dividendYield : Option ℚ := none
deriving DecidableEq

/-- The all-`'N/A'` initial details dictionary. -/
def detailsInit : Details := {}

/-- A detail document as delivered by the HTML capability: the
(dt text, first dd>p text) pairs of its dl elements, its tables as rows
of cell texts (td and th), and its whole-page text. -/
structure DetailDoc where
  dls : List (Str × Str)
  tables : List (List (List Str))
  pageText : Str
deriving DecidableEq

/-- One dl element in the original scraper's definition-list strategy
(lines 213-243): three independent label checks, each filling only a
still-default field, with no sign filter on the extracted number. -/
def dlStep (r : Details) (e : Str × Str) : Details :=
  match searchNumber (stripCommas e.2) with
  | none => r
  | some v =>
    let r1 := if containsSub "PER".toList e.1 ∧ r.per = none
      then { r with per := some v } else r
    let r2 := if containsSub "PBR".toList e.1 ∧ r1.pbr = none
      then { r1 with pbr := some v } else r1
    if (containsSub "配当利回り".toList e.1 ∨ containsSub "利回り".toList e.1)
        ∧ r2.dividendYield = none
      then { r2 with dividendYield := some v } else r2

/-- Definition-list strategy over all dl elements. -/
def detailsDLPhase (dls : List (Str × Str)) : Details :=
  dls.foldl dlStep detailsInit

/-- One table row in the two-column-table strategy (lines 246-287):
first cell is the label, second the value, and the extracted number is
kept only if `> 0` (PER, PBR) or `≥ 0` (dividend yield). -/
def tableRowStep (r : Details) (cells : List Str) : Details :=
  match cells with
  | label :: value :: _ =>
    let r1 :=
      if (containsSub "PER".toList label ∨ containsSub "株価収益率".toList label)
          ∧ r.per = none then
        match searchNumber (stripCommas value) with
        | some v => if 0 < v then { r with per := some v } else r
        | none => r
      else r
    let r2 :=
      if (containsSub "PBR".toList label ∨ containsSub "株価純資産倍率".toList label)
          ∧ r1.pbr = none then
        match searchNumber (stripCommas value) with
        | some v => if 0 < v then { r1 with pbr := some v } else r1
        | none => r1
      else r1
    if (containsSub "配当利回り".toList label ∨ containsSub "利回り".toList label)
        ∧ r2.dividendYield = none then
      match searchNumber (stripCommas value) with
      | some v => if 0 ≤ v then { r2 with dividendYield := some v } else r2
      | none => r2
    else r2
  | _ => r

/-- Two-column-table strategy, entered only when some field is still at
its default. -/
def detailsTablePhase (tables : List (List (List Str))) (r : Details) : Details :=
  if r.per = none ∨ r.pbr = none ∨ r.dividendYield = none then
    tables.foldl (fun acc tbl => tbl.foldl tableRowStep acc) r
  else r

/-- Match of `label ++ r"[：:]\s*([0-9,]+\.?\d*)"` (with a trailing
`\s*%` when `pct` is set) anchored at the start of `t`, returning the
captured group.  Greedy maximal munch agrees with the regex here: no
character after the maximal group can be re-consumed by `\s*%`. -/
def labeledGroupAt (label : Str) (pct : Bool) (t : Str) : Option Str :=
  if label.isPrefixOf t then
    match t.drop label.length with
    | d :: t2 =>
      if d = ':' ∨ d = '：' then
        let t3 := t2.dropWhile isSpaceChar
        let grp1 := t3.takeWhile (fun c => c.isDigit || c = ',')
        if grp1 = [] then none
        else
          let t4 := t3.drop grp1.length
          let gt : Str × Str :=
            match t4 with
            | '.' :: t5 => (grp1 ++ '.' :: t5.takeWhile Char.isDigit, t5.dropWhile Char.isDigit)
            | _ => (grp1, t4)
          if pct then
            if (gt.2.dropWhile isSpaceChar).head? = some '%' then some gt.1 else none
          else some gt.1
      else none
    | [] => none
  else none

/-- Search semantics of `re.search` for the label:value patterns of the
free-text strategy: the captured group of the leftmost match. -/
def searchLabeledGroup (label : Str) (pct : Bool) : Str → Option Str
  | [] => none
  | c :: cs =>
    match labeledGroupAt label pct (c :: cs) with
    | some g => some g
    | none => searchLabeledGroup label pct cs

/-- Python `float` on a comma-stripped captured group: digits with an
optional dot and further digits, at least one digit overall. -/
def parseFloatQ (s : Str) : Option ℚ :=
  let d1 := s.takeWhile Char.isDigit
  match s.drop d1.length with
  | [] => if d1 = [] then none else some (ratOfDigits d1 [])
  | '.' :: r =>
    let d2 := r.takeWhile Char.isDigit
    if r.drop d2.length = [] then
      if d1 = [] ∧ d2 = [] then none else some (ratOfDigits d1 d2)
    else none
  | _ => none

/-- The per-field pattern loop of the free-text strategy (lines 294-345):
try each pattern in order; a parsed value passing the sign check wins,
anything else falls through to the next pattern. -/
def tryLabelPatterns (pats : List Str) (pct : Bool) (ok : ℚ → Bool) (text : Str) : Option ℚ :=
  match pats with
  | [] => none
  | p :: ps =>
    match (searchLabeledGroup p pct text).bind (fun g => parseFloatQ (stripCommas g)) with
    | some v => if ok v then some v else tryLabelPatterns ps pct ok text
    | none => tryLabelPatterns ps pct ok text

/-- The PER block of the free-text strategy (lines 294-309): fill a
still-default PER from the first pattern whose match is `> 0`. -/
def textPerStep (text : Str) (r : Details) : Details :=
  if r.per = none then
    match tryLabelPatterns ["PER".toList, "株価収益率".toList] false
        (fun v => decide (0 < v)) text with
    | some v => { r with per := some v }
    | none => r
  else r

/-- The PBR block of the free-text strategy (lines 311-327). -/
def textPbrStep (text : Str) (r : Details) : Details :=
  if r.pbr = none then
    match tryLabelPatterns ["PBR".toList, "株価純資産倍率".toList] false
        (fun v => decide (0 < v)) text with
    | some v => { r with pbr := some v }
    | none => r
  else r

/-- The dividend-yield block of the free-text strategy (lines 329-345):
the patterns additionally require a trailing percent sign, and the
match must be `≥ 0`. -/
def textDyStep (text : Str) (r : Details) : Details :=
  if r.dividendYield = none then
    match tryLabelPatterns ["配当利回り".toList, "利回り".toList] true
        (fun v => decide (0 ≤ v)) text with
    | some v => { r with dividendYield := some v }
    | none => r
  else r

/-- Free-text strategy, entered only when some field is still at its
default: the PER, PBR and dividend-yield blocks in order. -/
def detailsTextPhase (text : Str) (r : Details) : Details :=
  if r.per = none ∨ r.pbr = none ∨ r.dividendYield = none then
    textDyStep text (textPbrStep text (textPerStep text r))
  else r

/-- `extract_company_details` on a fetched detail document: the ordered
fallback chain definition list → two-column table → free-text regex. -/
def extractCompanyDetails (doc : DetailDoc) : Details :=
  detailsTextPhase doc.pageText (detailsTablePhase doc.tables (detailsDLPhase doc.dls))

/-- One dl element in `_extract_details_from_html` of the optimized
scraper (lines 235-259): same label checks but chained with elif, and
again no sign filter. -/
def dlStepElif (r : Details) (e : Str × Str) : Details :=
  match searchNumber (stripCommas e.2) with
  | none => r
  | some v =>
    if containsSub "PER".toList e.1 ∧ r.per = none then { r with per := some v }
    else if containsSub "PBR".toList e.1 ∧ r.pbr = none then { r with pbr := some v }
    else if (containsSub "配当利回り".toList e.1 ∨ containsSub "利回り".toList e.1)
        ∧ r.dividendYield = none then { r with dividendYield := some v }
    else r

/-- `_extract_details_from_html`: the optimized scraper's extractor,
which only has the definition-list strategy. -/
def extractDetailsFromHtml (doc : DetailDoc) : Details :=
  doc.dls.foldl dlStepElif detailsInit

/-! ### Fetcher state and per-record enrichment
(`fetch_page_async` lines 125-138, `fetch_company_details_async`
lines 206-227 of the optimized scraper). -/

/-- Lookup in a Python dict modelled as an association list in which the
most recent binding comes first. -/
def lookupStr {α : Type} (k : Str) : List (Str × α) → Option α
  | [] => none
  | e :: rest => if k = e.1 then some e.2 else lookupStr k rest

/-- The two caches owned by the scraper object: `_cache` (URL to fetched
document, the body abstracted as its parsed form) and `_detail_cache`
(URL to extracted details). -/
structure ScraperState where
  cache : List (Str × DetailDoc)
  detailCache : List (Str × Details)
deriving DecidableEq

/-- `fetch_page_async`: answer from the cache when possible, otherwise
ask the transport capability `net` and cache a successful response; a
transport failure is logged and surfaces as `none`. -/
def fetchPageAsync (net : Str → Option DetailDoc) (st : ScraperState) (url : Str) :
    ScraperState × Option DetailDoc :=
  match lookupStr url st.cache with
  | some d => (st, some d)
  | none =>
    match net url with
    | some d => ({ st with cache := (url, d) :: st.cache }, some d)
    | none => (st, none)

/-- `fetch_company_details_async`: serve the valuation fields from the
detail cache when present (or do nothing for an empty URL), otherwise
fetch the detail page, extract, cache and fill the fields; on a failed
fetch the record is returned unchanged. -/
def fetchCompanyDetailsAsync (net : Str → Option DetailDoc) (st : ScraperState)
    (c : CompanyData) : ScraperState × CompanyData :=
  if c.detailUrl = [] ∨ (lookupStr c.detailUrl st.detailCache).isSome then
    match lookupStr c.detailUrl st.detailCache with
    | some d => (st, { c with per := d.per, pbr := d.pbr, dividendYield := d.dividendYield })
    | none => (st, c)
  else
    let p := fetchPageAsync net st c.detailUrl
    match p.2 with
    | some doc =>
      let d := extractDetailsFromHtml doc
      ({ p.1 with detailCache := (c.detailUrl, d) :: p.1.detailCache },
       { c with per := d.per, pbr := d.pbr, dividendYield := d.dividendYield })
    | none => (p.1, c)

/-! ### Batch scheduler (`fetch_all_details_parallel`, optimized scraper
lines 286-303). -/

/-- The batch slices and inter-batch sleeps of
`for i in range(0, total, batch_size)`: slice `companies[i:i+batch_size]`
is awaited as one batch, and `asyncio.sleep(RATE_LIMIT_DELAY)` runs
afterwards exactly when `i + batch_size < total`.  Each entry pairs a
batch with the flag saying whether the sleep follows it.  A zero batch
size is rejected by Python's `range` and yields nothing here. -/
def batchSlices {α : Type} (l : List α) (bs : Nat) : List (List α × Bool) :=
  if bs = 0 then []
  else
    (List.range ((l.length + bs - 1) / bs)).map
      (fun k => ((l.drop (k * bs)).take bs, decide (k * bs + bs < l.length)))

/-- Suspension-point events of one batch of the scheduler.  From the
source: the coroutine that awaits `asyncio.gather` enters
`async with asyncio.Semaphore(MAX_CONCURRENT_REQUESTS)` (acquire, then
release after the gather), while each gathered
`fetch_company_details_async` task suspends exactly once, at the
`session.get` of `fetch_page_async` (launch), and resumes when the
response arrives (settle); no task ever touches the semaphore. -/
inductive FetchOp where
  | acq
  | rel
  | launch
  | settle
deriving DecidableEq

/-- Scheduler state: free semaphore permits, currently in-flight
fetches, the peak in-flight count so far, and each task's remaining
suspension-point program. -/
structure Sched where
  permits : Nat
  inFlight : Nat
  peak : Nat
  tasks : List (List FetchOp)
deriving DecidableEq

/-- Execute the next event of task `i` when it is enabled (an acquire
needs a free permit; everything else is always enabled). -/
def schedStep (s : Sched) (i : Nat) : Option Sched :=
  match s.tasks.get? i with
  | some (op :: rest) =>
    match op with
    | .acq =>
      if 0 < s.permits then
        some { s with permits := s.permits - 1, tasks := s.tasks.set i rest }
      else none
    | .rel => some { s with permits := s.permits + 1, tasks := s.tasks.set i rest }
    | .launch =>
      some { s with inFlight := s.inFlight + 1, peak := max s.peak (s.inFlight + 1),
                    tasks := s.tasks.set i rest }
    | .settle => some { s with inFlight := s.inFlight - 1, tasks := s.tasks.set i rest }
  | _ => none

/-- Run a schedule (a list of task indices); fails if any chosen task is
blocked or finished. -/
def schedRun (s : Sched) : List Nat → Option Sched
  | [] => some s
  | i :: is =>
    match schedStep s i with
    | some s' => schedRun s' is
    | none => none

/-- Program of one gathered enrichment task (a record with an uncached
detail URL): launch the fetch, later settle it. -/
def enrichTaskProg : List FetchOp := [.launch, .settle]

/-- Program of the outer coroutine for one batch: the
`async with asyncio.Semaphore(...)` around the gather. -/
def gatherGuardProg : List FetchOp := [.acq, .rel]

/-- One batch of `fetch_all_details_parallel` with `n` enrichment tasks
and a fresh semaphore of `permits` permits: task 0 is the outer
coroutine, tasks 1..n the gathered enrichment tasks. -/
def batchSystem (n permits : Nat) : Sched :=
  ⟨permits, 0, 0, gatherGuardProg :: List.replicate n enrichTaskProg⟩

/-! ### Result assembly (`get_dividend_yield` and the descending sort,
`scrape_earnings_schedule.py` lines 775-789 and optimized scraper lines
398-409). -/

/-- Sort key of a record's dividend-yield field string: `-1` for the
literal `'N/A'` and for a string with no parsable number, else the
parsed value. -/
def getDividendYield (dy : Str) : ℚ :=
  if dy = "N/A".toList then -1
  else
    match searchNumber (stripCommas dy) with
    | some v => v
    | none => -1

/-- The final assembly sort
`sorted(all_data, key=get_dividend_yield, reverse=True)`: a stable sort,
descending by the dividend-yield key.  A record is its dividend-yield
field string paired with its remaining fields. -/
def sortByYieldDesc {α : Type} (l : List (α × Str)) : List (α × Str) :=
  l.mergeSort (fun a b => decide (getDividendYield b.2 ≤ getDividendYield a.2))

/-! ## Theorems -/

/-- Helper: the first-match scan returns the value at the first index
whose cell parses, when all earlier cells fail to parse. -/
theorem firstRate_eq_of (l : List Str) (k : Nat) (hk : k < l.length) (v : ℚ)
    (hsome : parseProgressRate l[k] = some v)
    (hnone : ∀ m, (hm : m < l.length) → m < k → parseProgressRate l[m] = none) :
    firstRate l = some v := by
  induction l generalizing k with
  | nil => simp at hk
  | cons c rest ih =>
    cases k with
    | zero =>
      simp only [List.getElem_cons_zero] at hsome
      simp [firstRate, hsome]
    | succ k' =>
      have h0 : parseProgressRate c = none := hnone 0 (by omega) (by omega)
      simp only [firstRate, h0]
      exact ih k' (by simpa using hk) (by simpa using hsome)
        (fun m hm hmk => by
          have := hnone (m + 1) (by omega) (by omega)
          simpa using this)

/-- C2: for every row with a cell whose trimmed text matches
`^\d+\.\d+$` (or the same with a trailing `%`) with value in [0, 200],
such that no cell further right also matches, the right-to-left scan
stops at that cell and the extracted progress rate is exactly its
value. -/
theorem claim_C2_progress_rate_right_to_left
    (cells : List Str) (i : Nat) (hi : i < cells.length) (v : ℚ)
    (hmatch : parseProgressRate cells[i] = some v)
    (hright : ∀ j, (hj : j < cells.length) → i < j → parseProgressRate cells[j] = none) :
    findProgressRate cells = some v := by
  unfold findProgressRate
  have hk : cells.length - 1 - i < cells.reverse.length := by
    simp only [List.length_reverse]; omega
  apply firstRate_eq_of _ (cells.length - 1 - i) hk v
  · rw [List.getElem_reverse]
    have : cells.length - 1 - (cells.length - 1 - i) = i := by omega
    simp only [this]
    exact hmatch
  · intro m hm hmk
    rw [List.getElem_reverse]
    have hlen : m < cells.length := by simpa using hm
    exact hright _ (by omega) (by omega)

/-- Witness for C2 on the repository's own sample row: the rightmost
matching cell text `"59.4"` wins. -/
theorem claim_C2_progress_rate_right_to_left_witness :
    findProgressRate ["13,900".toList, "59.4".toList, "3Q".toList] = some (mkRat 297 5) :=
  claim_C2_progress_rate_right_to_left _ 1 (by decide) _ (by decide)
    (fun j hj hij => by
      have : j = 2 := by simp at hj; omega
      subst this
      simp only [List.getElem_cons_succ, List.getElem_cons_zero]
      decide)

set_option maxRecDepth 8000 in
/-- C3 (code evaluated at the failing input): in a batch of 50
enrichment tasks under `MAX_CONCURRENT_REQUESTS = 10`, the schedule in
which the outer coroutine acquires the fresh semaphore and every
gathered task then issues its fetch before any response arrives is
legal, and it drives the in-flight fetch count to 50, far above the
limit of 10: the semaphore is acquired once around the gather instead
of inside the tasks, so it never constrains them. -/
theorem claim_C3_semaphore_unenforced :
    (schedRun (batchSystem 50 10) (List.range 51)).map Sched.peak = some 50
    ∧ 10 < 50 := by decide

/-- C4: the derived price-band indicator is exactly `(c - l) / (h - l)`,
equal to 1/2 at current 100, high 150, low 50; it stays unset whenever
`high ≤ low` or any of the three prices is missing. -/
theorem claim_C4_indicator :
    computeIndicator (some 100) (some 150) (some 50) = some (1 / 2)
    ∧ (∀ c h l : ℚ, h ≤ l → computeIndicator (some c) (some h) (some l) = none)
    ∧ (∀ h l, computeIndicator none h l = none)
    ∧ (∀ c l, computeIndicator c none l = none)
    ∧ (∀ c h, computeIndicator c h none = none) := by
  refine ⟨?_, ?_, ?_, ?_, ?_⟩
  · show (if (50 : ℚ) < 150 then some ((100 - 50) / (150 - 50)) else none) = some (1 / 2)
    norm_num
  · intro c h l hle
    simp only [computeIndicator, if_neg (not_lt.2 hle)]
  · intro h l; cases h <;> cases l <;> rfl
  · intro c l; cases c <;> cases l <;> rfl
  · intro c h; cases c <;> cases h <;> rfl

/-- Witness for C4: the 100/150/50 instance and a degenerate
high-equals-low instance. -/
theorem claim_C4_indicator_witness :
    computeIndicator (some 100) (some 150) (some 50) = some (1 / 2)
    ∧ computeIndicator (some 80) (some 100) (some 100) = none :=
  ⟨claim_C4_indicator.1, claim_C4_indicator.2.1 80 100 100 le_rfl⟩

/-- C9: with 25 records and batch size 10, the scheduler issues exactly
three contiguous batches of sizes 10, 10 and 5 whose concatenation is
the record list in order, and the inter-batch sleep follows batches 1
and 2 but not the final batch. -/
theorem claim_C9_batch_schedule {α : Type} (l : List α) (hl : l.length = 25) :
    (batchSlices l 10).map (fun b => b.1.length) = [10, 10, 5]
    ∧ (batchSlices l 10).map (fun b => b.2) = [true, true, false]
    ∧ ((batchSlices l 10).map (fun b => b.1)).join = l := by
  have h3 : (l.length + 10 - 1) / 10 = 3 := by rw [hl]
  have hr : List.range ((l.length + 10 - 1) / 10) = [0, 1, 2] := by rw [h3]; rfl
  unfold batchSlices
  rw [if_neg (by norm_num), hr]
  refine ⟨?_, ?_, ?_⟩
  · simp [List.length_take, List.length_drop, hl]
  · simp [hl]
  · have h30 : l.take 30 = l := List.take_of_length_le (by omega)
    have s1 : l.take 30 = l.take 10 ++ (l.drop 10).take 20 := List.take_add l 10 20
    have s2 : (l.drop 10).take 20 = (l.drop 10).take 10 ++ ((l.drop 10).drop 10).take 10 :=
      List.take_add (l.drop 10) 10 10
    have s3 : (l.drop 10).drop 10 = l.drop 20 := by
      rw [List.drop_drop]
    simp only [List.map_cons, List.map_nil, List.join_cons, List.join_nil, List.append_nil,
      Nat.zero_mul, Nat.one_mul, List.drop_zero]
    norm_num
    rw [← s3, ← s2, ← s1, h30]

/-- Witness for C9 at the concrete record list `0, ..., 24`. -/
theorem claim_C9_batch_schedule_witness :
    (batchSlices (List.range 25) 10).map (fun b => b.1.length) = [10, 10, 5]
    ∧ (batchSlices (List.range 25) 10).map (fun b => b.2) = [true, true, false]
    ∧ ((batchSlices (List.range 25) 10).map (fun b => b.1)).join = List.range 25 :=
  claim_C9_batch_schedule (List.range 25) (by simp)

/-- Helper: a record emitted by the per-document scan has a key outside
the seen set the scan started from. -/
theorem extractBatchAux_key_not_mem {seen : List Str} {rows : List ListingRow}
    {c : CompanyData} (hc : c ∈ extractBatchAux seen rows) : dedupKey c ∉ seen := by
  induction rows generalizing seen with
  | nil => simp [extractBatchAux] at hc
  | cons r rs ih =>
    cases hp : parseCompanyRow r with
    | none => simp only [extractBatchAux, hp] at hc; exact ih hc
    | some c' =>
      simp only [extractBatchAux, hp] at hc
      by_cases hk : dedupKey c' ∈ seen
      · rw [if_pos hk] at hc; exact ih hc
      · rw [if_neg hk] at hc
        rcases List.mem_cons.1 hc with h | h
        · subst h; exact hk
        · intro hmem
          exact ih h (List.mem_cons_of_mem _ hmem)

/-- Helper: the per-document scan emits pairwise distinct keys. -/
theorem extractBatchAux_pairwise (seen : List Str) (rows : List ListingRow) :
    (extractBatchAux seen rows).Pairwise (fun a b => dedupKey a ≠ dedupKey b) := by
  induction rows generalizing seen with
  | nil => simp [extractBatchAux]
  | cons r rs ih =>
    cases hp : parseCompanyRow r with
    | none => simp only [extractBatchAux, hp]; exact ih seen
    | some c' =>
      simp only [extractBatchAux, hp]
      by_cases hk : dedupKey c' ∈ seen
      · rw [if_pos hk]; exact ih seen
      · rw [if_neg hk]
        refine List.Pairwise.cons ?_ (ih _)
        intro b hb heq
        have hnb := extractBatchAux_key_not_mem hb
        exact hnb (heq ▸ List.mem_cons_self _ _)

/-- Helper: the run-wide filter only grows the seen set. -/
theorem siftNew_seen_subset (seen : List Str) (l : List CompanyData) :
    seen ⊆ (siftNew seen l).1 := by
  induction l generalizing seen with
  | nil => exact fun x h => h
  | cons c cs ih =>
    unfold siftNew
    by_cases hk : dedupKey c ∈ seen
    · rw [if_pos hk]; exact ih seen
    · rw [if_neg hk]
      exact fun x hx => ih _ (List.mem_cons_of_mem _ hx)

/-- Helper: a record passed through by the run-wide filter was not
already seen. -/
theorem siftNew_mem_out {seen : List Str} {l : List CompanyData} {c : CompanyData}
    (hc : c ∈ (siftNew seen l).2) : dedupKey c ∉ seen := by
  induction l generalizing seen with
  | nil => simp [siftNew] at hc
  | cons c' cs ih =>
    unfold siftNew at hc
    by_cases hk : dedupKey c' ∈ seen
    · rw [if_pos hk] at hc; exact ih hc
    · rw [if_neg hk] at hc
      rcases List.mem_cons.1 hc with h | h
      · subst h; exact hk
      · intro hmem
        exact ih h (List.mem_cons_of_mem _ hmem)

/-- Helper: the key of every record the run-wide filter passes through
lands in the final seen set. -/
theorem siftNew_key_mem_final {seen : List Str} {l : List CompanyData} {c : CompanyData}
    (hc : c ∈ (siftNew seen l).2) : dedupKey c ∈ (siftNew seen l).1 := by
  induction l generalizing seen with
  | nil => simp [siftNew] at hc
  | cons c' cs ih =>
    unfold siftNew at hc ⊢
    by_cases hk : dedupKey c' ∈ seen
    · rw [if_pos hk] at hc ⊢; exact ih hc
    · rw [if_neg hk] at hc ⊢
      rcases List.mem_cons.1 hc with h | h
      · subst h
        exact siftNew_seen_subset _ _ (List.mem_cons_self _ _)
      · exact ih h

/-- Helper: the run-wide filter emits pairwise distinct keys. -/
theorem siftNew_pairwise (seen : List Str) (l : List CompanyData) :
    (siftNew seen l).2.Pairwise (fun a b => dedupKey a ≠ dedupKey b) := by
  induction l generalizing seen with
  | nil => simp [siftNew]
  | cons c' cs ih =>
    unfold siftNew
    by_cases hk : dedupKey c' ∈ seen
    · rw [if_pos hk]; exact ih seen
    · rw [if_neg hk]
      refine List.Pairwise.cons ?_ (ih _)
      intro b hb heq
      have hnb := siftNew_mem_out hb
      exact hnb (heq ▸ List.mem_cons_self _ _)

/-- Helper: a record emitted by the page loop has a key outside the
seen set the loop started from. -/
theorem processPagesAux_key_not_mem {seen : List Str}
    {ps : List (Option (List ListingRow))} {c : CompanyData}
    (hc : c ∈ processPagesAux seen ps) : dedupKey c ∉ seen := by
  induction ps generalizing seen with
  | nil => simp [processPagesAux] at hc
  | cons p ps ih =>
    cases p with
    | none => exact ih hc
    | some rows =>
      unfold processPagesAux at hc
      rcases List.mem_append.1 hc with h | h
      · exact siftNew_mem_out h
      · intro hmem
        exact ih h (siftNew_seen_subset _ _ hmem)

/-- Helper: the page loop emits pairwise distinct keys. -/
theorem processPagesAux_pairwise (seen : List Str) (ps : List (Option (List ListingRow))) :
    (processPagesAux seen ps).Pairwise (fun a b => dedupKey a ≠ dedupKey b) := by
  induction ps generalizing seen with
  | nil => simp [processPagesAux]
  | cons p ps ih =>
    cases p with
    | none => exact ih seen
    | some rows =>
      unfold processPagesAux
      refine List.pairwise_append.2 ⟨siftNew_pairwise _ _, ih _, ?_⟩
      intro a ha b hb heq
      have hbk := processPagesAux_key_not_mem hb
      have hak := siftNew_key_mem_final ha
      exact hbk (heq ▸ hak)

/-- C1: no two emitted records ever share a dedup key, neither within
one document's scan (`extract_earnings_data_batch`) nor across the
pages of a whole run (`process_pages_parallel`): a row whose key was
already seen is skipped, not emitted again. -/
theorem claim_C1_dedup_key_unique :
    (∀ rows : List ListingRow,
      (extractBatch rows).Pairwise (fun a b => dedupKey a ≠ dedupKey b))
    ∧ (∀ pages : List (Option (List ListingRow)),
      (processPages pages).Pairwise (fun a b => dedupKey a ≠ dedupKey b)) :=
  ⟨fun rows => extractBatchAux_pairwise [] rows,
   fun pages => processPagesAux_pairwise [] pages⟩

/-- Witness for C1: the repository's own duplicated sample row, seen on
two pages, is emitted exactly once. -/
theorem claim_C1_dedup_key_unique_witness :
    (processPages
      [some [⟨[("大林組 1802".toList, "/reportTop?bcode=1802".toList)], ["59.4".toList]⟩],
       some [⟨[("大林組 1802".toList, "/reportTop?bcode=1802".toList)], ["59.4".toList]⟩]]).Pairwise
      (fun a b => dedupKey a ≠ dedupKey b) :=
  claim_C1_dedup_key_unique.2 _

/-- C8: enrichment is idempotent when the fetcher's cache already holds
the detail document: running `fetch_company_details_async` a second time
on the record (and state) produced by the first run returns the first
run's record unchanged. -/
theorem claim_C8_enrich_idempotent
    (net : Str → Option DetailDoc) (st : ScraperState) (c : CompanyData)
    (hcache : (lookupStr c.detailUrl st.cache).isSome) :
    (fetchCompanyDetailsAsync net (fetchCompanyDetailsAsync net st c).1
      (fetchCompanyDetailsAsync net st c).2).2
      = (fetchCompanyDetailsAsync net st c).2 := by
  by_cases hd : (lookupStr c.detailUrl st.detailCache).isSome
  · obtain ⟨d, hd'⟩ := Option.isSome_iff_exists.1 hd
    have h1 : fetchCompanyDetailsAsync net st c
        = (st, { c with per := d.per, pbr := d.pbr, dividendYield := d.dividendYield }) := by
      unfold fetchCompanyDetailsAsync
      rw [if_pos (Or.inr hd), hd']
    rw [h1]
    show (fetchCompanyDetailsAsync net st
      { c with per := d.per, pbr := d.pbr, dividendYield := d.dividendYield }).2
      = { c with per := d.per, pbr := d.pbr, dividendYield := d.dividendYield }
    unfold fetchCompanyDetailsAsync
    rw [if_pos (Or.inr (show (lookupStr c.detailUrl st.detailCache).isSome from hd))]
    rw [show lookupStr
        ({ c with per := d.per, pbr := d.pbr, dividendYield := d.dividendYield } :
          CompanyData).detailUrl st.detailCache = some d from hd']
  · have hd' : lookupStr c.detailUrl st.detailCache = none :=
      Option.not_isSome_iff_eq_none.1 hd
    by_cases hurl0 : c.detailUrl = []
    · have h1 : fetchCompanyDetailsAsync net st c = (st, c) := by
        unfold fetchCompanyDetailsAsync
        rw [if_pos (Or.inl hurl0), hd']
      rw [h1]
      show (fetchCompanyDetailsAsync net st c).2 = c
      rw [h1]
    · obtain ⟨doc, hdoc⟩ := Option.isSome_iff_exists.1 hcache
      have hfp : fetchPageAsync net st c.detailUrl = (st, some doc) := by
        unfold fetchPageAsync
        rw [hdoc]
      have hcond : ¬ (c.detailUrl = [] ∨ (lookupStr c.detailUrl st.detailCache).isSome) := by
        simp [hurl0, hd']
      have h1 : fetchCompanyDetailsAsync net st c
          = ({ st with detailCache :=
                (c.detailUrl, extractDetailsFromHtml doc) :: st.detailCache },
             { c with per := (extractDetailsFromHtml doc).per,
                      pbr := (extractDetailsFromHtml doc).pbr,
                      dividendYield := (extractDetailsFromHtml doc).dividendYield }) := by
        unfold fetchCompanyDetailsAsync
        rw [if_neg hcond]
        simp only [hfp]
      rw [h1]
      show (fetchCompanyDetailsAsync net
        { st with detailCache := (c.detailUrl, extractDetailsFromHtml doc) :: st.detailCache }
        { c with per := (extractDetailsFromHtml doc).per,
                 pbr := (extractDetailsFromHtml doc).pbr,
                 dividendYield := (extractDetailsFromHtml doc).dividendYield }).2
        = { c with per := (extractDetailsFromHtml doc).per,
                   pbr := (extractDetailsFromHtml doc).pbr,
                   dividendYield := (extractDetailsFromHtml doc).dividendYield }
      unfold fetchCompanyDetailsAsync
      have hlook : lookupStr c.detailUrl
          ((c.detailUrl, extractDetailsFromHtml doc) :: st.detailCache)
          = some (extractDetailsFromHtml doc) := by
        unfold lookupStr
        rw [if_pos rfl]
      rw [if_pos (Or.inr (hlook ▸ Option.isSome_some))]
      rw [show lookupStr
          ({ c with per := (extractDetailsFromHtml doc).per,
                    pbr := (extractDetailsFromHtml doc).pbr,
                    dividendYield := (extractDetailsFromHtml doc).dividendYield } :
            CompanyData).detailUrl
          ((c.detailUrl, extractDetailsFromHtml doc) :: st.detailCache)
          = some (extractDetailsFromHtml doc) from hlook]

/-- Witness for C8: a record whose detail URL is already in the page
cache is enriched idempotently. -/
theorem claim_C8_enrich_idempotent_witness :
    (fetchCompanyDetailsAsync (fun _ => none)
      (fetchCompanyDetailsAsync (fun _ => none)
        ⟨[("u".toList, ⟨[("PER".toList, "14.1倍".toList)], [], []⟩)], []⟩
        ⟨"n".toList, "1".toList, none, "u".toList, none, none, none⟩).1
      (fetchCompanyDetailsAsync (fun _ => none)
        ⟨[("u".toList, ⟨[("PER".toList, "14.1倍".toList)], [], []⟩)], []⟩
        ⟨"n".toList, "1".toList, none, "u".toList, none, none, none⟩).2).2
    = (fetchCompanyDetailsAsync (fun _ => none)
        ⟨[("u".toList, ⟨[("PER".toList, "14.1倍".toList)], [], []⟩)], []⟩
        ⟨"n".toList, "1".toList, none, "u".toList, none, none, none⟩).2 :=
  claim_C8_enrich_idempotent _ _ _ (by decide)

/-- Helper: replacement with a replacement at least as long as the
pattern never shortens the string. -/
theorem replaceAllAux_length_ge (pat rep : Str) (hlen : pat.length ≤ rep.length) :
    ∀ (fuel : Nat) (l : Str), l.length ≤ (replaceAllAux pat rep fuel l).length := by
  intro fuel
  induction fuel with
  | zero => intro l; cases l <;> simp [replaceAllAux]
  | succ f ih =>
    intro l
    cases l with
    | nil => simp [replaceAllAux]
    | cons c cs =>
      simp only [replaceAllAux]
      split_ifs with h
      · have hrec := ih ((c :: cs).drop pat.length)
        simp only [List.length_append, List.length_drop, List.length_cons] at hrec ⊢
        omega
      · have hrec := ih cs
        simp only [List.length_cons]
        omega

/-- Helper: when the pattern occurs, the scan splits the string at the
first occurrence, and the result is the prefix, then the replacement,
then the replaced remainder — uniformly in the replacement. -/
theorem replaceAllAux_split (pat : Str) (hpat : pat ≠ []) :
    ∀ (fuel : Nat) (l : Str), containsSub pat l = true → l.length ≤ fuel →
      ∃ pre suf fuel', l = pre ++ pat ++ suf ∧ suf.length ≤ fuel' ∧
        ∀ rep, replaceAllAux pat rep fuel l = pre ++ rep ++ replaceAllAux pat rep fuel' suf := by
  intro fuel
  induction fuel with
  | zero =>
    intro l hc hl
    have hnil : l = [] := List.length_eq_zero.1 (Nat.le_zero.1 hl)
    subst hnil
    simp only [containsSub] at hc
    exact absurd (List.isEmpty_iff.1 hc) hpat
  | succ f ih =>
    intro l hc hl
    cases l with
    | nil =>
      simp only [containsSub] at hc
      exact absurd (List.isEmpty_iff.1 hc) hpat
    | cons c cs =>
      by_cases hp : pat.isPrefixOf (c :: cs)
      · obtain ⟨t, ht⟩ := List.isPrefixOf_iff_prefix.1 hp
        refine ⟨[], t, f, by simpa using ht.symm, ?_, ?_⟩
        · have h1 : pat.length + t.length = (c :: cs).length := by
            rw [← ht, List.length_append]
          have h2 : 0 < pat.length := List.length_pos.2 hpat
          simp only [List.length_cons] at h1 hl
          omega
        · intro rep
          simp only [replaceAllAux]
          rw [if_pos ⟨hpat, hp⟩, ← ht, List.drop_left]
          simp
      · have hc' : containsSub pat cs = true := by
          simp only [containsSub, Bool.or_eq_true] at hc
          rcases hc with h | h
          · exact absurd h hp
          · exact h
        obtain ⟨pre, suf, fuel', hl', hs', heq⟩ := ih cs hc'
          (by simp only [List.length_cons] at hl; omega)
        refine ⟨c :: pre, suf, fuel', by simp [hl'], hs', ?_⟩
        intro rep
        simp only [replaceAllAux]
        rw [if_neg (fun hh => hp hh.2), heq rep]
        simp

/-- Helper: replacing an occurring pattern with a strictly longer
replacement strictly lengthens the string. -/
theorem replaceAll_length_gt (pat rep l : Str) (hpat : pat ≠ [])
    (hlen : pat.length < rep.length) (hc : containsSub pat l = true) :
    l.length < (replaceAll pat rep l).length := by
  obtain ⟨pre, suf, fuel', hl', _, heq⟩ :=
    replaceAllAux_split pat hpat l.length l hc le_rfl
  rw [replaceAll, heq rep]
  have h0 := replaceAllAux_length_ge pat rep (le_of_lt hlen) fuel' suf
  rw [hl']
  simp only [List.length_append]
  omega

/-- Helper: replacing an occurring pattern with two different
same-length replacements gives different results. -/
theorem replaceAll_ne_of_rep_ne (pat r1 r2 l : Str) (hpat : pat ≠ [])
    (hlen : r1.length = r2.length) (hne : r1 ≠ r2) (hc : containsSub pat l = true) :
    replaceAll pat r1 l ≠ replaceAll pat r2 l := by
  obtain ⟨pre, suf, fuel', _, _, heq⟩ :=
    replaceAllAux_split pat hpat l.length l hc le_rfl
  rw [replaceAll, replaceAll, heq r1, heq r2]
  intro h
  rw [List.append_assoc, List.append_assoc] at h
  have h2 := List.append_cancel_left h
  exact hne (List.append_inj h2 hlen).1

/-- Helper: on a string that is a hash-free prefix followed by the
pattern (whose first character is the hash), replacement rewrites
exactly the final pattern occurrence. -/
theorem replaceAllAux_clean_prefix (pat rep : Str) (h0 : pat.head? = some '#') :
    ∀ (pre : Str) (fuel : Nat), '#' ∉ pre → (pre ++ pat).length ≤ fuel →
      replaceAllAux pat rep fuel (pre ++ pat) = pre ++ rep := by
  cases pat with
  | nil => simp at h0
  | cons p0 pt =>
    have hp0 : p0 = '#' := by simpa using h0
    subst hp0
    intro pre
    induction pre with
    | nil =>
      intro fuel _ hl
      cases fuel with
      | zero => simp at hl
      | succ f =>
        simp only [List.nil_append, replaceAllAux]
        rw [if_pos ⟨List.cons_ne_nil _ _, List.isPrefixOf_iff_prefix.2 (List.prefix_refl _)⟩]
        rw [List.drop_length]
        simp [replaceAllAux]
    | cons c pre' ih =>
      intro fuel hmem hl
      have hc : c ≠ '#' := fun h => hmem (h ▸ List.mem_cons_self _ _)
      cases fuel with
      | zero => simp at hl
      | succ f =>
        simp only [List.cons_append, replaceAllAux]
        rw [if_neg ?hneg]
        case hneg =>
          intro hh
          have := List.isPrefixOf_iff_prefix.1 hh.2
          obtain ⟨t, ht⟩ := this
          simp only [List.cons_append, List.cons.injEq] at ht
          exact hc ht.1.symm
        show c :: replaceAllAux ('#' :: pt) rep f (pre' ++ '#' :: pt) = c :: (pre' ++ rep)
        rw [ih f (fun h => hmem (List.mem_cons_of_mem _ h))
          (by simp only [List.cons_append, List.length_cons] at hl ⊢; omega)]

/-- Helper: the pattern occurs as a substring of anything it suffixes. -/
theorem containsSub_append_self (pre pat : Str) : containsSub pat (pre ++ pat) = true := by
  induction pre with
  | nil =>
    cases pat with
    | nil => rfl
    | cons p0 pt =>
      simp only [List.nil_append, containsSub, Bool.or_eq_true]
      exact Or.inl (List.isPrefixOf_iff_prefix.2 (List.prefix_refl _))
  | cons c pre' ih =>
    simp only [List.cons_append, containsSub, Bool.or_eq_true]
    exact Or.inr ih

/-- Helper: two synthesized URLs over the same seed start with the same
character, whatever their page numbers. -/
theorem synthRaw_head_eq (base : Str) (n m : Nat) :
    (synthRaw base n).head? = (synthRaw base m).head? := by
  simp only [synthRaw]
  by_cases hc : containsSub stocklistTag base = true
  · rw [if_pos hc, if_pos hc]
    obtain ⟨pre, suf, fuel', _, _, heq⟩ :=
      replaceAllAux_split stocklistTag (by decide) base.length base hc le_rfl
    rw [replaceAll, replaceAll, heq, heq]
    cases pre with
    | nil =>
      by_cases hq : '?' ∈ base
      · simp [hq]
      · simp [hq]
    | cons c0 pre' => simp
  · rw [if_neg hc, if_neg hc]
    cases base with
    | nil => simp
    | cons b0 bs => simp

/-- Helper: pages 2 and 3 synthesize different URLs. -/
theorem synthRaw_ne_23 (base : Str) : synthRaw base 2 ≠ synthRaw base 3 := by
  simp only [synthRaw]
  by_cases hc : containsSub stocklistTag base = true
  · rw [if_pos hc, if_pos hc]
    apply replaceAll_ne_of_rep_ne _ _ _ _ (by decide) ?_ ?_ hc
    · by_cases hq : '?' ∈ base <;> simp [hq] <;> decide
    · by_cases hq : '?' ∈ base <;> simp [hq] <;> decide
  · rw [if_neg hc, if_neg hc]
    intro h
    have h2 := List.append_cancel_left h
    exact absurd (List.append_cancel_left h2) (by decide)

/-- Helper: synthesis strictly lengthens the seed URL. -/
theorem synthRaw_length (base : Str) (n : Nat) : base.length < (synthRaw base n).length := by
  simp only [synthRaw]
  by_cases hc : containsSub stocklistTag base = true
  · rw [if_pos hc]
    apply replaceAll_length_gt _ _ _ (by decide) ?_ hc
    by_cases hq : '?' ∈ base <;>
      [rw [if_pos hq]; rw [if_neg hq]] <;>
      simp only [List.length_append, List.length_singleton] <;> omega
  · rw [if_neg hc]
    by_cases hq : '?' ∈ base <;>
      [rw [if_pos hq]; rw [if_neg hq]] <;>
      simp only [List.length_append, List.length_singleton] <;> omega

/-- Helper: the full synthesized page URLs for pages 2 and 3 differ. -/
theorem synthPageUrl_ne_23 (base : Str) : synthPageUrl base 2 ≠ synthPageUrl base 3 := by
  simp only [synthPageUrl]
  have hh := synthRaw_head_eq base 2 3
  by_cases h2 : (synthRaw base 2).head? = some '/'
  · rw [if_pos h2, if_pos (hh ▸ h2)]
    intro h
    exact synthRaw_ne_23 base (List.append_cancel_left h)
  · rw [if_neg h2, if_neg (fun hcon => h2 (hh.trans hcon))]
    exact synthRaw_ne_23 base

/-- Helper: the full synthesized page URL is strictly longer than the
seed, hence never literally equal to it. -/
theorem synthPageUrl_length (base : Str) (n : Nat) :
    base.length < (synthPageUrl base n).length := by
  simp only [synthPageUrl]
  have hr := synthRaw_length base n
  split_ifs
  · simp only [List.length_append]; omega
  · exact hr

/-- Helper: the seed URL never equals a synthesized page URL. -/
theorem base_ne_synthPageUrl (base : Str) (n : Nat) : base ≠ synthPageUrl base n := by
  intro h
  have := synthPageUrl_length base n
  rw [← h] at this
  exact lt_irrefl _ this

/-- Helper: an upper bound on all elements bounds the max fold. -/
theorem foldl_max_le (m : Nat) : ∀ (l : List Nat) (a : Nat), a ≤ m →
    (∀ x ∈ l, x ≤ m) → l.foldl max a ≤ m := by
  intro l
  induction l with
  | nil => intro a ha _; exact ha
  | cons c cs ih =>
    intro a ha hall
    exact ih _ (max_le ha (hall c (List.mem_cons_self _ _)))
      (fun x hx => hall x (List.mem_cons_of_mem _ hx))

/-- Helper: the max fold dominates its initial value. -/
theorem le_foldl_max : ∀ (l : List Nat) (a : Nat), a ≤ l.foldl max a := by
  intro l
  induction l with
  | nil => intro a; exact le_rfl
  | cons c cs ih => intro a; exact le_trans (le_max_left a c) (ih (max a c))

/-- Helper: the max fold dominates every element. -/
theorem mem_le_foldl_max : ∀ (l : List Nat) (a : Nat) {x : Nat}, x ∈ l → x ≤ l.foldl max a := by
  intro l
  induction l with
  | nil => intro a x hx; simp at hx
  | cons c cs ih =>
    intro a x hx
    rcases List.mem_cons.1 hx with h | h
    · subst h; exact le_trans (le_max_right a x) (le_foldl_max cs _)
    · exact ih _ h

/-- C5: for a seed document whose pagination links carry exactly the
page numbers 2 and 3, `get_all_page_urls` returns exactly three URLs —
the literal seed URL first (no synthesized variant for page 1), then
the synthesized URLs for pages 2 and 3 in ascending page order — with
no duplicates. -/
theorem claim_C5_resolve_pages (links : List Str) (base : Str)
    (hsub : ∀ n ∈ extractPageNums links, n = 2 ∨ n = 3)
    (h3 : 3 ∈ extractPageNums links) :
    getAllPageUrls links base = [base, synthPageUrl base 2, synthPageUrl base 3]
    ∧ (getAllPageUrls links base).length = 3
    ∧ (getAllPageUrls links base).head? = some base
    ∧ (getAllPageUrls links base).Nodup := by
  have hne : extractPageNums links ≠ [] := List.ne_nil_of_mem h3
  have hmax : (extractPageNums links).foldl max 0 = 3 := by
    apply le_antisymm
    · exact foldl_max_le 3 _ 0 (by omega)
        (fun x hx => by rcases hsub x hx with h | h <;> omega)
    · exact mem_le_foldl_max _ 0 h3
  have heq : getAllPageUrls links base
      = [base, synthPageUrl base 2, synthPageUrl base 3] := by
    simp only [getAllPageUrls]
    rw [if_neg hne, hmax]
    rfl
  refine ⟨heq, by rw [heq]; rfl, by rw [heq]; rfl, ?_⟩
  rw [heq]
  have hb2 := base_ne_synthPageUrl base 2
  have hb3 := base_ne_synthPageUrl base 3
  have h23 := synthPageUrl_ne_23 base
  simp [List.nodup_cons, hb2, hb3, h23]

/-- Witness for C5 on a concrete seed document with pagination links
for pages 2 and 3. -/
theorem claim_C5_resolve_pages_witness :
    getAllPageUrls ["/calender?a=1&page=2".toList, "/calender?a=1&page=3".toList]
        "https://kabuyoho.jp/calender?a=1".toList
      = ["https://kabuyoho.jp/calender?a=1".toList,
         synthPageUrl "https://kabuyoho.jp/calender?a=1".toList 2,
         synthPageUrl "https://kabuyoho.jp/calender?a=1".toList 3]
    ∧ (getAllPageUrls ["/calender?a=1&page=2".toList, "/calender?a=1&page=3".toList]
        "https://kabuyoho.jp/calender?a=1".toList).length = 3
    ∧ (getAllPageUrls ["/calender?a=1&page=2".toList, "/calender?a=1&page=3".toList]
        "https://kabuyoho.jp/calender?a=1".toList).head?
      = some "https://kabuyoho.jp/calender?a=1".toList
    ∧ (getAllPageUrls ["/calender?a=1&page=2".toList, "/calender?a=1&page=3".toList]
        "https://kabuyoho.jp/calender?a=1".toList).Nodup :=
  claim_C5_resolve_pages _ _ (by decide) (by decide)

/-- Helper: dropping to the first hash skips any hash-free prefix. -/
theorem fragmentOf_append (l1 l2 : Str) (h : ∀ c ∈ l1, c ≠ '#') :
    fragmentOf (l1 ++ l2) = fragmentOf l2 := by
  induction l1 with
  | nil => rfl
  | cons c l1' ih =>
    show ((c :: l1') ++ l2).dropWhile (fun c => c ≠ '#') = fragmentOf l2
    rw [List.cons_append, List.dropWhile_cons,
      if_pos (by simp [h c (List.mem_cons_self _ _)])]
    exact ih (fun x hx => h x (List.mem_cons_of_mem _ hx))

/-- Helper: a hash-free property is preserved by concatenation. -/
theorem no_hash_append {l1 l2 : Str} (h1 : ∀ c ∈ l1, c ≠ '#') (h2 : ∀ c ∈ l2, c ≠ '#') :
    ∀ c ∈ l1 ++ l2, c ≠ '#' := by
  intro c hc
  rcases List.mem_append.1 hc with h | h
  · exact h1 c h
  · exact h2 c h

/-- Helper: the fragment of a hash-free string followed by the literal
`#stocklist` fragment is exactly that fragment. -/
theorem fragmentOf_append_tag (x : Str) (h : ∀ c ∈ x, c ≠ '#') :
    fragmentOf (x ++ stocklistTag) = stocklistTag := by
  rw [fragmentOf_append x _ h]
  decide

/-- Helper: decimal digit characters are never the hash. -/
theorem digitChar_ne_hash : ∀ m : Nat, m < 10 → Nat.digitChar m ≠ '#' := by decide

/-- Helper: the base-10 digit renderer only emits digit characters
(in particular, never a hash). -/
theorem toDigitsCore_no_hash : ∀ (fuel n : Nat) (ds : Str), (∀ c ∈ ds, c ≠ '#') →
    ∀ c ∈ Nat.toDigitsCore 10 fuel n ds, c ≠ '#' := by
  intro fuel
  induction fuel with
  | zero => intro n ds hds; simpa [Nat.toDigitsCore] using hds
  | succ f ih =>
    intro n ds hds c hc
    simp only [Nat.toDigitsCore] at hc
    have hd : Nat.digitChar (n % 10) ≠ '#' :=
      digitChar_ne_hash _ (Nat.mod_lt _ (by norm_num))
    by_cases hz : n / 10 = 0
    · rw [if_pos hz] at hc
      rcases List.mem_cons.1 hc with h | h
      · exact h ▸ hd
      · exact hds c h
    · rw [if_neg hz] at hc
      exact ih _ _ (fun x hx => by
        rcases List.mem_cons.1 hx with h | h
        · exact h ▸ hd
        · exact hds x h) c hc

/-- Helper: no hash appears in a rendered page number. -/
theorem toDigits_no_hash (n : Nat) : ∀ c ∈ Nat.toDigits 10 n, c ≠ '#' := by
  unfold Nat.toDigits
  exact toDigitsCore_no_hash _ _ [] (by simp)

/-- Helper: for a seed whose fragment is the literal `#stocklist` (and
no other hash), every synthesized page URL keeps that fragment as its
suffix: the page parameter lands before it. -/
theorem synthPageUrl_fragment (pre : Str) (n : Nat) (hmem : '#' ∉ pre) :
    fragmentOf (synthPageUrl (pre ++ stocklistTag) n) = stocklistTag
    ∧ stocklistTag <:+ synthPageUrl (pre ++ stocklistTag) n := by
  have hpre : ∀ c ∈ pre, c ≠ '#' := fun c hc he => hmem (he ▸ hc)
  have hc : containsSub stocklistTag (pre ++ stocklistTag) = true :=
    containsSub_append_self _ _
  have hraw : synthRaw (pre ++ stocklistTag) n
      = pre ++ (((if '?' ∈ pre ++ stocklistTag then ['&'] else ['?'])
          ++ ("page=".toList ++ Nat.toDigits 10 n)) ++ stocklistTag) := by
    simp only [synthRaw]
    rw [if_pos hc, replaceAll]
    exact replaceAllAux_clean_prefix _ _ (by decide) pre _ hmem le_rfl
  have hsep : ∀ c ∈ (if '?' ∈ pre ++ stocklistTag then (['&'] : Str) else ['?']), c ≠ '#' := by
    by_cases hq : '?' ∈ pre ++ stocklistTag
    · rw [if_pos hq]; decide
    · rw [if_neg hq]; decide
  have hpg : ∀ c ∈ ("page=".toList : Str), c ≠ '#' := by decide
  have hdig := toDigits_no_hash n
  have horig : ∀ c ∈ siteOrigin, c ≠ '#' := by decide
  simp only [synthPageUrl]
  rw [hraw]
  by_cases habs : (pre ++ (((if '?' ∈ pre ++ stocklistTag then ['&'] else ['?'])
      ++ ("page=".toList ++ Nat.toDigits 10 n)) ++ stocklistTag)).head? = some '/'
  · rw [if_pos habs]
    simp only [← List.append_assoc]
    exact ⟨fragmentOf_append_tag _
        (no_hash_append (no_hash_append (no_hash_append (no_hash_append horig hpre) hsep) hpg) hdig),
      List.suffix_append _ _⟩
  · rw [if_neg habs]
    simp only [← List.append_assoc]
    exact ⟨fragmentOf_append_tag _
        (no_hash_append (no_hash_append (no_hash_append hpre hsep) hpg) hdig),
      List.suffix_append _ _⟩

/-- C6 (counterexample): for a seed URL whose fragment is `#top`, the
page URL synthesized by the pagination resolver appends `&page=2` after
the fragment, so the fragment is not the suffix of the synthesized URL
and the claim, quantified over every seed URL with a fragment, is
false. -/
theorem claim_C6_fragment_counterexample :
    fragmentOf "https://kabuyoho.jp/calender?x=1#top".toList ≠ []
    ∧ ∃ u ∈ getAllPageUrls ["/calender?x=1&page=2".toList]
        "https://kabuyoho.jp/calender?x=1#top".toList,
        ¬ fragmentOf "https://kabuyoho.jp/calender?x=1#top".toList <:+ u := by
  decide

/-- C6 (amended): for every seed URL whose fragment is the literal
`#stocklist` (the one substring the synthesizer looks for, with no
other hash in the URL), every page URL produced by the resolver keeps
that fragment as its suffix, the page parameter being inserted before
it.  The counterexample above shows the guarantee does not extend to
every fragment. -/
theorem claim_C6_fragment_amended (pre : Str) (links : List Str) (n : Nat)
    (hmem : '#' ∉ pre) :
    fragmentOf (pre ++ stocklistTag) = stocklistTag
    ∧ fragmentOf (synthPageUrl (pre ++ stocklistTag) n) = stocklistTag
    ∧ stocklistTag <:+ synthPageUrl (pre ++ stocklistTag) n
    ∧ ∀ u ∈ getAllPageUrls links (pre ++ stocklistTag), stocklistTag <:+ u := by
  have hpre : ∀ c ∈ pre, c ≠ '#' := fun c hc he => hmem (he ▸ hc)
  refine ⟨fragmentOf_append_tag pre hpre, (synthPageUrl_fragment pre n hmem).1,
    (synthPageUrl_fragment pre n hmem).2, ?_⟩
  intro u hu
  simp only [getAllPageUrls] at hu
  by_cases hnil : extractPageNums links = []
  · rw [if_pos hnil] at hu
    simp at hu
    subst hu
    exact List.suffix_append _ _
  · rw [if_neg hnil] at hu
    rcases List.mem_cons.1 hu with h | h
    · subst h
      exact List.suffix_append _ _
    · obtain ⟨k, _, rfl⟩ := List.mem_map.1 h
      exact (synthPageUrl_fragment pre k hmem).2

/-- Witness for the amended C6 at a concrete seed with the
`#stocklist` fragment. -/
theorem claim_C6_fragment_amended_witness :
    fragmentOf ("https://kabuyoho.jp/calender?a=1".toList ++ stocklistTag) = stocklistTag
    ∧ fragmentOf (synthPageUrl
        ("https://kabuyoho.jp/calender?a=1".toList ++ stocklistTag) 2) = stocklistTag
    ∧ stocklistTag <:+ synthPageUrl
        ("https://kabuyoho.jp/calender?a=1".toList ++ stocklistTag) 2
    ∧ ∀ u ∈ getAllPageUrls ["/calender?a=1&page=2".toList]
        ("https://kabuyoho.jp/calender?a=1".toList ++ stocklistTag), stocklistTag <:+ u :=
  claim_C6_fragment_amended _ _ _ (by decide)

/-- Helper: the exact decimal value of a digit pair is nonnegative. -/
theorem ratOfDigits_nonneg (d1 d2 : Str) : 0 ≤ ratOfDigits d1 d2 := by
  rw [ratOfDigits, Rat.mkRat_eq_div]
  positivity

/-- Helper: any number found by the number-extraction regex is
nonnegative (its text has no sign). -/
theorem searchNumber_nonneg : ∀ {s : Str} {v : ℚ}, searchNumber s = some v → 0 ≤ v := by
  intro s
  induction s with
  | nil => intro v h; simp [searchNumber] at h
  | cons c cs ih =>
    intro v h
    simp only [searchNumber] at h
    split at h
    · split at h
      · injection h with h'; exact h' ▸ ratOfDigits_nonneg _ _
      · injection h with h'; exact h' ▸ ratOfDigits_nonneg _ _
    · exact ih h

/-- Helper: any captured group parsed by the float conversion is
nonnegative. -/
theorem parseFloatQ_nonneg : ∀ {s : Str} {v : ℚ}, parseFloatQ s = some v → 0 ≤ v := by
  intro s v h
  simp only [parseFloatQ] at h
  split at h
  · split at h
    · simp at h
    · injection h with h'; exact h' ▸ ratOfDigits_nonneg _ _
  · split at h
    · split at h
      · simp at h
      · injection h with h'; exact h' ▸ ratOfDigits_nonneg _ _
    · simp at h
  · simp at h

/-- Helper: a value returned by the pattern loop passed its sign
check. -/
theorem tryLabelPatterns_ok : ∀ {pats : List Str} {pct : Bool} {ok : ℚ → Bool}
    {text : Str} {v : ℚ}, tryLabelPatterns pats pct ok text = some v → ok v = true := by
  intro pats
  induction pats with
  | nil => intro _ _ _ v h; simp [tryLabelPatterns] at h
  | cons p ps ih =>
    intro pct ok text v h
    simp only [tryLabelPatterns] at h
    split at h
    · split at h
      · injection h with h'; subst h'; assumption
      · exact ih h
    · exact ih h

/-- Helper: predicate preservation through a left fold. -/
theorem foldl_preserve {β : Type} {P : Details → Prop} {f : Details → β → Details}
    (hf : ∀ r b, P r → P (f r b)) : ∀ (l : List β) (r : Details), P r → P (l.foldl f r) := by
  intro l
  induction l with
  | nil => exact fun r h => h
  | cons b bs ih => exact fun r h => ih _ (hf r b h)

/-- Helper: the definition-list step either keeps the PER field or sets
it to a nonnegative value (it has no positivity filter). -/
theorem dlStep_per (r : Details) (e : Str × Str) :
    (dlStep r e).per = r.per ∨ ∃ v, (dlStep r e).per = some v ∧ 0 ≤ v := by
  simp only [dlStep]
  split
  · exact Or.inl rfl
  · next v hv =>
    have hv0 : 0 ≤ v := searchNumber_nonneg hv
    split_ifs <;> first | exact Or.inl rfl | exact Or.inr ⟨v, rfl, hv0⟩

/-- Helper: the definition-list step either keeps the PBR field or sets
it to a nonnegative value. -/
theorem dlStep_pbr (r : Details) (e : Str × Str) :
    (dlStep r e).pbr = r.pbr ∨ ∃ v, (dlStep r e).pbr = some v ∧ 0 ≤ v := by
  simp only [dlStep]
  split
  · exact Or.inl rfl
  · next v hv =>
    have hv0 : 0 ≤ v := searchNumber_nonneg hv
    split_ifs <;> first | exact Or.inl rfl | exact Or.inr ⟨v, rfl, hv0⟩

/-- Helper: the definition-list step either keeps the dividend-yield
field or sets it to a nonnegative value. -/
theorem dlStep_dy (r : Details) (e : Str × Str) :
    (dlStep r e).dividendYield = r.dividendYield
    ∨ ∃ v, (dlStep r e).dividendYield = some v ∧ 0 ≤ v := by
  simp only [dlStep]
  split
  · exact Or.inl rfl
  · next v hv =>
    have hv0 : 0 ≤ v := searchNumber_nonneg hv
    split_ifs <;> first | exact Or.inl rfl | exact Or.inr ⟨v, rfl, hv0⟩

/-- Helper: the elif-chained definition-list step of the optimized
extractor either keeps a field or sets it to a nonnegative value. -/
theorem dlStepElif_fields (r : Details) (e : Str × Str) :
    ((dlStepElif r e).per = r.per ∨ ∃ v, (dlStepElif r e).per = some v ∧ 0 ≤ v)
    ∧ ((dlStepElif r e).pbr = r.pbr ∨ ∃ v, (dlStepElif r e).pbr = some v ∧ 0 ≤ v)
    ∧ ((dlStepElif r e).dividendYield = r.dividendYield
        ∨ ∃ v, (dlStepElif r e).dividendYield = some v ∧ 0 ≤ v) := by
  simp only [dlStepElif]
  split
  · exact ⟨Or.inl rfl, Or.inl rfl, Or.inl rfl⟩
  · next v hv =>
    have hv0 : 0 ≤ v := searchNumber_nonneg hv
    split_ifs <;>
      exact ⟨by first | exact Or.inl rfl | exact Or.inr ⟨v, rfl, hv0⟩,
             by first | exact Or.inl rfl | exact Or.inr ⟨v, rfl, hv0⟩,
             by first | exact Or.inl rfl | exact Or.inr ⟨v, rfl, hv0⟩⟩

/-- Helper: the table-row step either keeps the PER field or sets it to
a strictly positive value. -/
theorem tableRowStep_per (r : Details) (cells : List Str) :
    (tableRowStep r cells).per = r.per
    ∨ ∃ v, (tableRowStep r cells).per = some v ∧ 0 < v := by
  simp only [tableRowStep]
  split
  · next label value rest =>
    cases hsn : searchNumber (stripCommas value) with
    | none => simp only [hsn]; split_ifs <;> exact Or.inl rfl
    | some v =>
      simp only [hsn]
      split_ifs <;> first | exact Or.inl rfl | exact Or.inr ⟨v, rfl, by assumption⟩
  · exact Or.inl rfl

/-- Helper: the table-row step either keeps the PBR field or sets it to
a strictly positive value. -/
theorem tableRowStep_pbr (r : Details) (cells : List Str) :
    (tableRowStep r cells).pbr = r.pbr
    ∨ ∃ v, (tableRowStep r cells).pbr = some v ∧ 0 < v := by
  simp only [tableRowStep]
  split
  · next label value rest =>
    cases hsn : searchNumber (stripCommas value) with
    | none => simp only [hsn]; split_ifs <;> exact Or.inl rfl
    | some v =>
      simp only [hsn]
      split_ifs <;> first | exact Or.inl rfl | exact Or.inr ⟨v, rfl, by assumption⟩
  · exact Or.inl rfl

/-- Helper: the table-row step either keeps the dividend-yield field or
sets it to a nonnegative value. -/
theorem tableRowStep_dy (r : Details) (cells : List Str) :
    (tableRowStep r cells).dividendYield = r.dividendYield
    ∨ ∃ v, (tableRowStep r cells).dividendYield = some v ∧ 0 ≤ v := by
  simp only [tableRowStep]
  split
  · next label value rest =>
    cases hsn : searchNumber (stripCommas value) with
    | none => simp only [hsn]; split_ifs <;> exact Or.inl rfl
    | some v =>
      simp only [hsn]
      split_ifs <;> first | exact Or.inl rfl | exact Or.inr ⟨v, rfl, by assumption⟩
  · exact Or.inl rfl

/-- Helper: the free-text PER block either keeps PER or sets it to a
strictly positive value. -/
theorem textPerStep_per (t : Str) (r : Details) :
    (textPerStep t r).per = r.per ∨ ∃ v, (textPerStep t r).per = some v ∧ 0 < v := by
  simp only [textPerStep]
  split_ifs
  · cases htp : tryLabelPatterns ["PER".toList, "株価収益率".toList] false
        (fun v => decide (0 < v)) t with
    | none => exact Or.inl rfl
    | some v => exact Or.inr ⟨v, rfl, of_decide_eq_true (tryLabelPatterns_ok htp)⟩
  · exact Or.inl rfl

/-- Helper: the free-text PER block never touches PBR. -/
theorem textPerStep_pbr (t : Str) (r : Details) : (textPerStep t r).pbr = r.pbr := by
  simp only [textPerStep]
  split_ifs
  · cases htp : tryLabelPatterns ["PER".toList, "株価収益率".toList] false
        (fun v => decide (0 < v)) t <;> rfl
  · rfl

/-- Helper: the free-text PER block never touches the dividend yield. -/
theorem textPerStep_dy (t : Str) (r : Details) :
    (textPerStep t r).dividendYield = r.dividendYield := by
  simp only [textPerStep]
  split_ifs
  · cases htp : tryLabelPatterns ["PER".toList, "株価収益率".toList] false
        (fun v => decide (0 < v)) t <;> rfl
  · rfl

/-- Helper: the free-text PBR block either keeps PBR or sets it to a
strictly positive value. -/
theorem textPbrStep_pbr (t : Str) (r : Details) :
    (textPbrStep t r).pbr = r.pbr ∨ ∃ v, (textPbrStep t r).pbr = some v ∧ 0 < v := by
  simp only [textPbrStep]
  split_ifs
  · cases htp : tryLabelPatterns ["PBR".toList, "株価純資産倍率".toList] false
        (fun v => decide (0 < v)) t with
    | none => exact Or.inl rfl
    | some v => exact Or.inr ⟨v, rfl, of_decide_eq_true (tryLabelPatterns_ok htp)⟩
  · exact Or.inl rfl

/-- Helper: the free-text PBR block never touches PER. -/
theorem textPbrStep_per (t : Str) (r : Details) : (textPbrStep t r).per = r.per := by
  simp only [textPbrStep]
  split_ifs
  · cases htp : tryLabelPatterns ["PBR".toList, "株価純資産倍率".toList] false
        (fun v => decide (0 < v)) t <;> rfl
  · rfl

/-- Helper: the free-text PBR block never touches the dividend yield. -/
theorem textPbrStep_dy (t : Str) (r : Details) :
    (textPbrStep t r).dividendYield = r.dividendYield := by
  simp only [textPbrStep]
  split_ifs
  · cases htp : tryLabelPatterns ["PBR".toList, "株価純資産倍率".toList] false
        (fun v => decide (0 < v)) t <;> rfl
  · rfl

/-- Helper: the free-text dividend-yield block either keeps the yield
or sets it to a nonnegative value. -/
theorem textDyStep_dy (t : Str) (r : Details) :
    (textDyStep t r).dividendYield = r.dividendYield
    ∨ ∃ v, (textDyStep t r).dividendYield = some v ∧ 0 ≤ v := by
  simp only [textDyStep]
  split_ifs
  · cases htp : tryLabelPatterns ["配当利回り".toList, "利回り".toList] true
        (fun v => decide (0 ≤ v)) t with
    | none => exact Or.inl rfl
    | some v => exact Or.inr ⟨v, rfl, of_decide_eq_true (tryLabelPatterns_ok htp)⟩
  · exact Or.inl rfl

/-- Helper: the free-text dividend-yield block never touches PER. -/
theorem textDyStep_per (t : Str) (r : Details) : (textDyStep t r).per = r.per := by
  simp only [textDyStep]
  split_ifs
  · cases htp : tryLabelPatterns ["配当利回り".toList, "利回り".toList] true
        (fun v => decide (0 ≤ v)) t <;> rfl
  · rfl

/-- Helper: the free-text dividend-yield block never touches PBR. -/
theorem textDyStep_pbr (t : Str) (r : Details) : (textDyStep t r).pbr = r.pbr := by
  simp only [textDyStep]
  split_ifs
  · cases htp : tryLabelPatterns ["配当利回り".toList, "利回り".toList] true
        (fun v => decide (0 ≤ v)) t <;> rfl
  · rfl

/-- Helper: the free-text phase either keeps PER or sets it to a
strictly positive value. -/
theorem detailsTextPhase_per (t : Str) (r : Details) :
    (detailsTextPhase t r).per = r.per
    ∨ ∃ v, (detailsTextPhase t r).per = some v ∧ 0 < v := by
  simp only [detailsTextPhase]
  split_ifs
  · rw [textDyStep_per, textPbrStep_per]
    exact textPerStep_per t r
  · exact Or.inl rfl

/-- Helper: the free-text phase either keeps PBR or sets it to a
strictly positive value. -/
theorem detailsTextPhase_pbr (t : Str) (r : Details) :
    (detailsTextPhase t r).pbr = r.pbr
    ∨ ∃ v, (detailsTextPhase t r).pbr = some v ∧ 0 < v := by
  simp only [detailsTextPhase]
  split_ifs
  · rw [textDyStep_pbr]
    rcases textPbrStep_pbr t (textPerStep t r) with h | ⟨v, hv, hv0⟩
    · rw [h, textPerStep_pbr]
      exact Or.inl rfl
    · exact Or.inr ⟨v, hv, hv0⟩
  · exact Or.inl rfl

/-- Helper: the free-text phase either keeps the dividend yield or sets
it to a nonnegative value. -/
theorem detailsTextPhase_dy (t : Str) (r : Details) :
    (detailsTextPhase t r).dividendYield = r.dividendYield
    ∨ ∃ v, (detailsTextPhase t r).dividendYield = some v ∧ 0 ≤ v := by
  simp only [detailsTextPhase]
  split_ifs
  · rcases textDyStep_dy t (textPbrStep t (textPerStep t r)) with h | ⟨v, hv, hv0⟩
    · rw [h, textPbrStep_dy, textPerStep_dy]
      exact Or.inl rfl
    · exact Or.inr ⟨v, hv, hv0⟩
  · exact Or.inl rfl

/-- Helper: the table phase either keeps PER or sets it to a strictly
positive value. -/
theorem detailsTablePhase_per (tables : List (List (List Str))) (r : Details) :
    (detailsTablePhase tables r).per = r.per
    ∨ ∃ v, (detailsTablePhase tables r).per = some v ∧ 0 < v := by
  simp only [detailsTablePhase]
  split_ifs
  · refine foldl_preserve
      (P := fun r' => r'.per = r.per ∨ ∃ v, r'.per = some v ∧ 0 < v)
      ?_ tables r (Or.inl rfl)
    intro acc tbl hacc
    refine foldl_preserve
      (P := fun r' => r'.per = r.per ∨ ∃ v, r'.per = some v ∧ 0 < v)
      ?_ tbl acc hacc
    intro acc' row hacc'
    rcases tableRowStep_per acc' row with h | ⟨v, hv, hv0⟩
    · rcases hacc' with h' | ⟨v, hv, hv0⟩
      · exact Or.inl (h.trans h')
      · exact Or.inr ⟨v, h.trans hv, hv0⟩
    · exact Or.inr ⟨v, hv, hv0⟩
  · exact Or.inl rfl

/-- Helper: the table phase either keeps PBR or sets it to a strictly
positive value. -/
theorem detailsTablePhase_pbr (tables : List (List (List Str))) (r : Details) :
    (detailsTablePhase tables r).pbr = r.pbr
    ∨ ∃ v, (detailsTablePhase tables r).pbr = some v ∧ 0 < v := by
  simp only [detailsTablePhase]
  split_ifs
  · refine foldl_preserve
      (P := fun r' => r'.pbr = r.pbr ∨ ∃ v, r'.pbr = some v ∧ 0 < v)
      ?_ tables r (Or.inl rfl)
    intro acc tbl hacc
    refine foldl_preserve
      (P := fun r' => r'.pbr = r.pbr ∨ ∃ v, r'.pbr = some v ∧ 0 < v)
      ?_ tbl acc hacc
    intro acc' row hacc'
    rcases tableRowStep_pbr acc' row with h | ⟨v, hv, hv0⟩
    · rcases hacc' with h' | ⟨v, hv, hv0⟩
      · exact Or.inl (h.trans h')
      · exact Or.inr ⟨v, h.trans hv, hv0⟩
    · exact Or.inr ⟨v, hv, hv0⟩
  · exact Or.inl rfl

/-- Helper: the table phase either keeps the dividend yield or sets it
to a nonnegative value. -/
theorem detailsTablePhase_dy (tables : List (List (List Str))) (r : Details) :
    (detailsTablePhase tables r).dividendYield = r.dividendYield
    ∨ ∃ v, (detailsTablePhase tables r).dividendYield = some v ∧ 0 ≤ v := by
  simp only [detailsTablePhase]
  split_ifs
  · refine foldl_preserve
      (P := fun r' => r'.dividendYield = r.dividendYield ∨ ∃ v, r'.dividendYield = some v ∧ 0 ≤ v)
      ?_ tables r (Or.inl rfl)
    intro acc tbl hacc
    refine foldl_preserve
      (P := fun r' => r'.dividendYield = r.dividendYield ∨ ∃ v, r'.dividendYield = some v ∧ 0 ≤ v)
      ?_ tbl acc hacc
    intro acc' row hacc'
    rcases tableRowStep_dy acc' row with h | ⟨v, hv, hv0⟩
    · rcases hacc' with h' | ⟨v, hv, hv0⟩
      · exact Or.inl (h.trans h')
      · exact Or.inr ⟨v, h.trans hv, hv0⟩
    · exact Or.inr ⟨v, hv, hv0⟩
  · exact Or.inl rfl

/-- Helper: every PER value the definition-list phase can produce is
nonnegative. -/
theorem detailsDLPhase_per_nonneg (dls : List (Str × Str)) :
    ∀ v, (detailsDLPhase dls).per = some v → 0 ≤ v := by
  refine foldl_preserve (P := fun r => ∀ v, r.per = some v → 0 ≤ v) ?_ dls detailsInit ?_
  · intro r b hr v hv
    rcases dlStep_per r b with h | ⟨w, hw, hw0⟩
    · exact hr v (h ▸ hv)
    · rw [hv] at hw
      injection hw with hw
      exact hw ▸ hw0
  · intro v hv
    simp [detailsInit] at hv

/-- Helper: every PBR value the definition-list phase can produce is
nonnegative. -/
theorem detailsDLPhase_pbr_nonneg (dls : List (Str × Str)) :
    ∀ v, (detailsDLPhase dls).pbr = some v → 0 ≤ v := by
  refine foldl_preserve (P := fun r => ∀ v, r.pbr = some v → 0 ≤ v) ?_ dls detailsInit ?_
  · intro r b hr v hv
    rcases dlStep_pbr r b with h | ⟨w, hw, hw0⟩
    · exact hr v (h ▸ hv)
    · rw [hv] at hw
      injection hw with hw
      exact hw ▸ hw0
  · intro v hv
    simp [detailsInit] at hv

/-- Helper: every dividend-yield value the definition-list phase can
produce is nonnegative. -/
theorem detailsDLPhase_dy_nonneg (dls : List (Str × Str)) :
    ∀ v, (detailsDLPhase dls).dividendYield = some v → 0 ≤ v := by
  refine foldl_preserve (P := fun r => ∀ v, r.dividendYield = some v → 0 ≤ v)
    ?_ dls detailsInit ?_
  · intro r b hr v hv
    rcases dlStep_dy r b with h | ⟨w, hw, hw0⟩
    · exact hr v (h ▸ hv)
    · rw [hv] at hw
      injection hw with hw
      exact hw ▸ hw0
  · intro v hv
    simp [detailsInit] at hv

/-- Helper: transfer of a per-field bound through a phase that either
keeps the field or sets it to a value with the bound. -/
theorem field_bound_trans {x y : Option ℚ} {P : ℚ → Prop}
    (hopt : y = x ∨ ∃ v, y = some v ∧ P v) (hx : ∀ v, x = some v → P v) :
    ∀ v, y = some v → P v := by
  intro v hv
  rcases hopt with h | ⟨w, hw, hw0⟩
  · exact hx v (h ▸ hv)
  · rw [hv] at hw
    injection hw with hw
    exact hw ▸ hw0

/-- C7 (amended): across the full fallback chain, a populated PER or
PBR always holds a value that is at least 0, and one populated by the
two-column-table or free-text strategies (in particular whenever the
definition-list strategy left the field unset) is strictly positive; a
populated dividend yield is always at least 0.  The definition-list
strategy itself applies no positivity filter, so it can populate PER or
PBR with the value 0 — that is the only deviation from the claim. -/
theorem claim_C7_sanity_amended (doc : DetailDoc) :
    (∀ v, (extractCompanyDetails doc).per = some v → 0 ≤ v)
    ∧ (∀ v, (extractCompanyDetails doc).pbr = some v → 0 ≤ v)
    ∧ (∀ v, (extractCompanyDetails doc).dividendYield = some v → 0 ≤ v)
    ∧ ((detailsDLPhase doc.dls).per = none →
        ∀ v, (extractCompanyDetails doc).per = some v → 0 < v)
    ∧ ((detailsDLPhase doc.dls).pbr = none →
        ∀ v, (extractCompanyDetails doc).pbr = some v → 0 < v)
    ∧ (∀ doc₂ : DetailDoc,
        (∀ v, (extractDetailsFromHtml doc₂).per = some v → 0 ≤ v)
        ∧ (∀ v, (extractDetailsFromHtml doc₂).pbr = some v → 0 ≤ v)
        ∧ (∀ v, (extractDetailsFromHtml doc₂).dividendYield = some v → 0 ≤ v)) := by
  have hper1 := detailsDLPhase_per_nonneg doc.dls
  have hpbr1 := detailsDLPhase_pbr_nonneg doc.dls
  have hdy1 := detailsDLPhase_dy_nonneg doc.dls
  have hper2 := field_bound_trans (P := fun v => 0 ≤ v)
    ((detailsTablePhase_per doc.tables (detailsDLPhase doc.dls)).imp id
      (fun ⟨v, hv, h0⟩ => ⟨v, hv, le_of_lt h0⟩)) hper1
  have hpbr2 := field_bound_trans (P := fun v => 0 ≤ v)
    ((detailsTablePhase_pbr doc.tables (detailsDLPhase doc.dls)).imp id
      (fun ⟨v, hv, h0⟩ => ⟨v, hv, le_of_lt h0⟩)) hpbr1
  have hdy2 := field_bound_trans (P := fun v => 0 ≤ v)
    (detailsTablePhase_dy doc.tables (detailsDLPhase doc.dls)) hdy1
  refine ⟨?_, ?_, ?_, ?_, ?_, ?_⟩
  · exact field_bound_trans (P := fun v => 0 ≤ v)
      ((detailsTextPhase_per doc.pageText _).imp id
        (fun ⟨v, hv, h0⟩ => ⟨v, hv, le_of_lt h0⟩)) hper2
  · exact field_bound_trans (P := fun v => 0 ≤ v)
      ((detailsTextPhase_pbr doc.pageText _).imp id
        (fun ⟨v, hv, h0⟩ => ⟨v, hv, le_of_lt h0⟩)) hpbr2
  · exact field_bound_trans (P := fun v => 0 ≤ v)
      (detailsTextPhase_dy doc.pageText _) hdy2
  · intro hnone
    have hS1 : ∀ v, (detailsDLPhase doc.dls).per = some v → 0 < v := by
      intro v hv
      rw [hnone] at hv
      cases hv
    have hS2 := field_bound_trans (P := fun v => 0 < v)
      (detailsTablePhase_per doc.tables (detailsDLPhase doc.dls)) hS1
    exact field_bound_trans (P := fun v => 0 < v)
      (detailsTextPhase_per doc.pageText _) hS2
  · intro hnone
    have hS1 : ∀ v, (detailsDLPhase doc.dls).pbr = some v → 0 < v := by
      intro v hv
      rw [hnone] at hv
      cases hv
    have hS2 := field_bound_trans (P := fun v => 0 < v)
      (detailsTablePhase_pbr doc.tables (detailsDLPhase doc.dls)) hS1
    exact field_bound_trans (P := fun v => 0 < v)
      (detailsTextPhase_pbr doc.pageText _) hS2
  · intro doc₂
    refine ⟨?_, ?_, ?_⟩
    · refine foldl_preserve (P := fun r => ∀ v, r.per = some v → 0 ≤ v)
        ?_ doc₂.dls detailsInit ?_
      · intro r b hr
        exact field_bound_trans (P := fun v => 0 ≤ v) (dlStepElif_fields r b).1 hr
      · intro v hv
        simp [detailsInit] at hv
    · refine foldl_preserve (P := fun r => ∀ v, r.pbr = some v → 0 ≤ v)
        ?_ doc₂.dls detailsInit ?_
      · intro r b hr
        exact field_bound_trans (P := fun v => 0 ≤ v) (dlStepElif_fields r b).2.1 hr
      · intro v hv
        simp [detailsInit] at hv
    · refine foldl_preserve (P := fun r => ∀ v, r.dividendYield = some v → 0 ≤ v)
        ?_ doc₂.dls detailsInit ?_
      · intro r b hr
        exact field_bound_trans (P := fun v => 0 ≤ v) (dlStepElif_fields r b).2.2 hr
      · intro v hv
        simp [detailsInit] at hv

/-- C7 (counterexample): a detail document whose definition list holds
the pair (PER, "0.0倍") makes the extractor populate the PER field with
the value 0, which is not strictly positive: the definition-list
strategy applies no positivity filter. -/
theorem claim_C7_sanity_counterexample :
    (extractCompanyDetails ⟨[("PER".toList, "0.0倍".toList)], [], []⟩).per = some 0
    ∧ ¬ (0 : ℚ) > 0 := by
  constructor
  · decide
  · norm_num

/-- Witness for the amended C7: a document whose definition list left
PER unset but whose table populated it yields a strictly positive
PER. -/
theorem claim_C7_sanity_amended_witness :
    (0 : ℚ) < mkRat 155 10 ∧ (0 : ℚ) ≤ mkRat 275 100 :=
  ⟨(claim_C7_sanity_amended ⟨[], [[["PER".toList, "15.5".toList]]], []⟩).2.2.2.1
      (by decide) (mkRat 155 10) (by decide),
   (claim_C7_sanity_amended
      ⟨[("配当利回り".toList, "2.75%".toList)], [], []⟩).2.2.1 (mkRat 275 100) (by decide)⟩

/-- Helper: the number-extraction regex finds nothing in a digit-free
string. -/
theorem searchNumber_none_of_no_digit : ∀ {s : Str},
    (∀ c ∈ s, c.isDigit = false) → searchNumber s = none := by
  intro s
  induction s with
  | nil => intro _; rfl
  | cons c cs ih =>
    intro h
    simp only [searchNumber]
    rw [if_neg (by simp [h c (List.mem_cons_self _ _)])]
    exact ih (fun x hx => h x (List.mem_cons_of_mem _ hx))

/-- Helper: the dividend-yield sort key of a digit-free field string
(including the literal `'N/A'`) is `-1`. -/
theorem getDividendYield_no_digit (s : Str) (h : ∀ c ∈ s, c.isDigit = false) :
    getDividendYield s = -1 := by
  simp only [getDividendYield]
  split_ifs
  · rfl
  · have hnone : searchNumber (stripCommas s) = none :=
      searchNumber_none_of_no_digit (fun c hc => h c (List.mem_of_mem_filter hc))
    rw [hnone]

/-- Helper: the dividend-yield sort key is either `-1` or a
nonnegative parsed value. -/
theorem getDividendYield_neg_one_or_nonneg (s : Str) :
    getDividendYield s = -1 ∨ 0 ≤ getDividendYield s := by
  simp only [getDividendYield]
  split_ifs
  · exact Or.inl rfl
  · cases hsn : searchNumber (stripCommas s) with
    | none => exact Or.inl rfl
    | some v => exact Or.inr (searchNumber_nonneg hsn)

/-- Helper: a list sorted descending by a rational key is its
nonnegative-key records followed by its negative-key records. -/
theorem sorted_desc_split {α : Type} (key : α → ℚ) :
    ∀ (l : List α), l.Pairwise (fun a b => key b ≤ key a) →
      l = l.filter (fun a => decide (0 ≤ key a))
        ++ l.filter (fun a => decide (key a < 0)) := by
  intro l
  induction l with
  | nil => intro _; rfl
  | cons a t ih =>
    intro h
    have ha := (List.pairwise_cons.1 h).1
    have ht := (List.pairwise_cons.1 h).2
    by_cases h0 : 0 ≤ key a
    · rw [List.filter_cons_of_pos (by simpa using h0),
        List.filter_cons_of_neg (by simpa using not_lt.2 h0), List.cons_append]
      congr 1
      exact ih ht
    · have hneg : key a < 0 := not_le.1 h0
      have hall : ∀ b ∈ t, key b < 0 := fun b hb => lt_of_le_of_lt (ha b hb) hneg
      rw [List.filter_cons_of_neg (by simpa using h0),
        List.filter_cons_of_pos (by simpa using hneg)]
      have hf1 : t.filter (fun x => decide (0 ≤ key x)) = [] := by
        rw [List.filter_eq_nil]
        intro b hb
        simp [not_le.2 (hall b hb)]
      have hf2 : t.filter (fun x => decide (key x < 0)) = t := by
        rw [List.filter_eq_self]
        intro b hb
        simpa using hall b hb
      rw [hf1, hf2]
      rfl

/-- C10 (implicit): the assembled output is the input records sorted by
the dividend-yield key in descending order; the key of the literal
`'N/A'` and of any field with no parsable number is `-1`, every key is
`-1` or a nonnegative parsed value, and consequently the output is
exactly the nonnegative-key records followed by the `-1`-key records —
every record without a parsed yield comes after every record with
one. -/
theorem claim_C10_sort_by_yield (α : Type) (l : List (α × Str)) :
    (sortByYieldDesc l).Perm l
    ∧ (sortByYieldDesc l).Pairwise
        (fun a b => getDividendYield b.2 ≤ getDividendYield a.2)
    ∧ sortByYieldDesc l
        = (sortByYieldDesc l).filter (fun a => decide (0 ≤ getDividendYield a.2))
          ++ (sortByYieldDesc l).filter (fun a => decide (getDividendYield a.2 < 0))
    ∧ getDividendYield ("N/A".toList) = -1
    ∧ (∀ s : Str, (∀ c ∈ s, c.isDigit = false) → getDividendYield s = -1)
    ∧ (∀ s : Str, getDividendYield s = -1 ∨ 0 ≤ getDividendYield s) := by
  have htrans : ∀ (a b c : α × Str),
      decide (getDividendYield b.2 ≤ getDividendYield a.2) = true →
      decide (getDividendYield c.2 ≤ getDividendYield b.2) = true →
      decide (getDividendYield c.2 ≤ getDividendYield a.2) = true :=
    fun a b c hab hbc =>
      decide_eq_true (le_trans (of_decide_eq_true hbc) (of_decide_eq_true hab))
  have htotal : ∀ (a b : α × Str),
      (decide (getDividendYield b.2 ≤ getDividendYield a.2)
        || decide (getDividendYield a.2 ≤ getDividendYield b.2)) = true := by
    intro a b
    simp only [Bool.or_eq_true, decide_eq_true_eq]
    exact le_total _ _
  have hs : (l.mergeSort (fun a b : α × Str =>
      decide (getDividendYield b.2 ≤ getDividendYield a.2))).Pairwise
      (fun a b => decide (getDividendYield b.2 ≤ getDividendYield a.2) = true) :=
    List.sorted_mergeSort htrans htotal l
  have hpair : (sortByYieldDesc l).Pairwise
      (fun a b => getDividendYield b.2 ≤ getDividendYield a.2) :=
    hs.imp (fun hab => of_decide_eq_true hab)
  have hsplit := sorted_desc_split (fun a : α × Str => getDividendYield a.2)
    (sortByYieldDesc l) hpair
  have hna : getDividendYield ("N/A".toList) = -1 := by decide
  exact ⟨List.mergeSort_perm l _, hpair, hsplit, hna, getDividendYield_no_digit,
    getDividendYield_neg_one_or_nonneg⟩

/-- Witness for C10: concrete digit-free yield fields get the sentinel
key. -/
theorem claim_C10_sort_by_yield_witness :
    getDividendYield ("済".toList) = -1 ∧ getDividendYield ("N/A".toList) = -1 :=
  ⟨(claim_C10_sort_by_yield Unit []).2.2.2.2.1 _ (by decide),
   (claim_C10_sort_by_yield Unit []).2.2.2.1⟩

end Stock
